import Mathlib

/-!
Shallow embedding of `yt/frontends/ramses/io_utils.pyx` (RAMSES AMR reader).

The three procedures of that file are embedded as pure Lean functions:

* `read_amr`    — topology reader (walks the grid-hierarchy section, registers
  grids into the octree container, returns the maximum refined depth);
* `read_offset` — offset indexer (walks the data section, builds the
  `(offset, level_count)` tables, raises `YTIllDefinedAMRData` on a level-id
  mismatch);
* `fill_hydro`  — selective field filler (jump-table construction, per-block
  absolute seek plus conditional relative seeks, buffer aliasing, handoff to
  `fill_level` / `fill_level_with_domain`).

External collaborators are modelled abstractly, exactly at their interfaces:

* the `FortranFile` record reader is a byte cursor over an abstract content
  oracle (`intAt p` is the int32 returned by `read_int` when the cursor is at
  byte `p`; `vecAt p` is an opaque token standing for the bytes of the
  floating-point record starting at byte `p`).  One int record occupies
  `INT32_SIZE + INT64_SIZE` bytes and one record of `n` doubles occupies
  `n * DOUBLE_SIZE + INT64_SIZE` bytes, the same framing convention the
  source's own `skip_len` helper uses;
* the octree container's `add` is an oracle `add_n` giving the number of new
  octs reported by the k-th `add` call; `fill_level` /
  `fill_level_with_domain` calls are recorded as `Handoff` log events.
-/

namespace RamsesIO

/-! ## Sizes and record framing (from the source's ctypedefs) -/

def INT32_SIZE : Int := 4
def INT64_SIZE : Int := 8
def DOUBLE_SIZE : Int := 8

/-- Byte length of one integer record consumed by `FortranFile.read_int`
(4 payload bytes plus the record length markers, counted as one
`INT64_SIZE` exactly as the source's `skip_len` convention does). -/
def INT_REC_SIZE : Int := INT32_SIZE + INT64_SIZE

/-- `cdef inline int skip_len(int Nskip, int record_len)`:
byte length of `Nskip` records of `record_len` doubles each. -/
def skip_len (Nskip record_len : Int) : Int :=
  Nskip * (record_len * DOUBLE_SIZE + INT64_SIZE)

theorem skip_len_add (a b n : Int) :
    skip_len a n + skip_len b n = skip_len (a + b) n := by
  unfold skip_len; ring

theorem skip_len_zero (n : Int) : skip_len 0 n = 0 := by
  unfold skip_len; ring

theorem skip_len_nonneg {a n : Int} (ha : 0 ≤ a) (hn : 0 ≤ n) :
    0 ≤ skip_len a n := by
  unfold skip_len DOUBLE_SIZE INT64_SIZE
  positivity

/-! ## Loop enumeration

Both `read_amr` and `read_offset` iterate `for ilevel in range(nlevelmax):
for icpu in range(ncpu_and_bound):`.  `loopPairs L C` is that nested
enumeration, in order. -/

def loopPairs (L C : Nat) : List (Nat × Nat) :=
  (List.range L).flatMap (fun il => (List.range C).map (fun ic => (il, ic)))

theorem mem_loopPairs {L C : Nat} {p : Nat × Nat} :
    p ∈ loopPairs L C ↔ p.1 < L ∧ p.2 < C := by
  cases p with
  | mk il ic =>
    simp only [loopPairs, List.mem_flatMap, List.mem_map, List.mem_range,
      Prod.mk.injEq]
    constructor
    · rintro ⟨a, ha, b, hb, rfl, rfl⟩; exact ⟨ha, hb⟩
    · rintro ⟨h1, h2⟩; exact ⟨il, h1, ic, h2, rfl, rfl⟩

/-! ## `read_offset` -/

/-- Abstract data-section file: `intAt p` is the integer returned by
`f.read_int()` issued with the cursor at byte position `p`. -/
structure OffsetFile where
  intAt : Int → Int
  name : String

/-- Payload of the `YTIllDefinedAMRData` exception raised by `read_offset`
(file identity, the level id read from data, the expected loop level). -/
structure AMRDataError where
  fname : String
  file_ilevel : Int
  expected : Nat
deriving DecidableEq

/-- State threaded through `read_offset`'s nested loops: the byte cursor and
the two output tables (indexed `(icpu, ilevel - min_level)`, initialized to
`-1` and `0` respectively). -/
structure OffsetState where
  pos : Int
  offset : Nat → Nat → Int
  level_count : Nat → Nat → Int

/-- Pointwise update of a 2-D table. -/
def upd2 (t : Nat → Nat → Int) (i l : Nat) (v : Int) : Nat → Nat → Int :=
  fun i' l' => if i' = i ∧ l' = l then v else t i' l'

/-- One iteration of `read_offset`'s inner loop body: read the two header
ints, skip an absent block, raise on a level-id mismatch, record
`(f.tell(), file_ncache)` when `ilevel >= min_level`, and seek past the
payload. -/
def read_offset_step (f : OffsetFile) (min_level Nskip : Int)
    (st : OffsetState) (p : Nat × Nat) : Except AMRDataError OffsetState :=
  let ilevel := p.1
  let icpu := p.2
  let file_ilevel := f.intAt st.pos
  let file_ncache := f.intAt (st.pos + INT_REC_SIZE)
  let pos1 := st.pos + 2 * INT_REC_SIZE
  if file_ncache = 0 then
    .ok { st with pos := pos1 }
  else if file_ilevel ≠ (ilevel : Int) + 1 then
    .error ⟨f.name, file_ilevel, ilevel⟩
  else
    let st1 :=
      if (ilevel : Int) ≥ min_level then
        { st with
          offset := upd2 st.offset icpu (((ilevel : Int) - min_level).toNat) pos1
          level_count :=
            upd2 st.level_count icpu (((ilevel : Int) - min_level).toNat) file_ncache }
      else st
    .ok { st1 with pos := pos1 + skip_len Nskip file_ncache }

/-- `cpdef read_offset(f, min_level, domain_id, nvar, headers, Nskip)`.
`p0` is the byte position of the file cursor on entry; `domain_id` is a
parameter of the source function that its body never uses.  Returns the
final state (its `offset` / `level_count` components are the returned
tables) or the raised `YTIllDefinedAMRData`. -/
def read_offset (f : OffsetFile) (p0 : Int) (min_level : Int)
    (domain_id : Int) (nvar : Int) (ndim nlevelmax ncpu nboundary : Nat)
    (Nskip : Int) : Except AMRDataError OffsetState :=
  let _ := domain_id
  let twotondim : Int := (2 : Int) ^ ndim
  let ncpu_and_bound := nboundary + ncpu
  let Nskip := if Nskip = -1 then twotondim * nvar else Nskip
  let init : OffsetState := ⟨p0, fun _ _ => -1, fun _ _ => 0⟩
  (loopPairs nlevelmax ncpu_and_bound).foldlM (read_offset_step f min_level Nskip) init

def isErr {ε α : Type} : Except ε α → Bool
  | .error _ => true
  | .ok _ => false

/-! ## `read_amr` -/

/-- Abstract topology-section file: the cursor is a record index (every
operation of `read_amr` — `skip(n)`, `read_vector`— consumes whole
records), and `recAt k` is an opaque token for the `k`-th record's bytes. -/
structure AMRFile where
  recAt : Nat → Int

/-- One `oct_handler.add(icpu + 1, ilevel - min_level, pos[:ng, :],
count_boundary=1)` call, together with the count `n` it returned. -/
structure AddCall where
  cpu1 : Nat
  level : Int
  ng : Int
  n : Int
deriving DecidableEq

/-- State threaded through `read_amr`'s nested loops: the record cursor,
the coordinate-buffer capacity, the running `max_level`, and the log of
`add` calls issued so far. -/
structure AMRState where
  cursor : Nat
  buffer_size : Int
  max_level : Int
  calls : List AddCall
deriving DecidableEq

/-- Grid count of the `(ilevel, icpu)` iteration: `numbl[ilevel, icpu]`
for a real domain, the boundary-count table entry for a ghost domain. -/
def ngOf (numbl : Nat → Nat → Int) (ngridbound : Nat → Int)
    (ncpu nboundary : Nat) (ilevel icpu : Nat) : Int :=
  if icpu < ncpu then numbl ilevel icpu
  else ngridbound (icpu - ncpu + nboundary * ilevel)

/-- One iteration of `read_amr`'s inner loop body. `add_n k` is the value
returned by the octree container for the k-th `add` call of this run. -/
def read_amr_step (numbl : Nat → Nat → Int) (ngridbound : Nat → Int)
    (add_n : Nat → Int) (ncpu nboundary ndim : Nat) (min_level : Int)
    (st : AMRState) (p : Nat × Nat) : AMRState :=
  let ilevel := p.1
  let icpu := p.2
  let ng : Int := ngOf numbl ngridbound ncpu nboundary ilevel icpu
  if ng = 0 then st
  else
    let buffer_size := if ng > st.buffer_size then ng else st.buffer_size
    -- skip grid index / next / prev (3), read x, y, z (3), then skip the
    -- father / neighbor / son / cpu-map / refinement-map records
    let skip_amr : Nat := 1 + 2 * ndim + 2 ^ ndim + 2 ^ ndim + 2 ^ ndim
    let cursor := st.cursor + 3 + 3 + skip_amr
    if (ilevel : Int) ≥ min_level then
      let n := add_n st.calls.length
      let call : AddCall := ⟨icpu + 1, (ilevel : Int) - min_level, ng, n⟩
      let max_level :=
        if n > 0 then max ((ilevel : Int) - min_level) st.max_level
        else st.max_level
      ⟨cursor, buffer_size, max_level, st.calls ++ [call]⟩
    else
      ⟨cursor, buffer_size, st.max_level, st.calls⟩

/-- `def read_amr(f, headers, ngridbound, min_level, oct_handler)`.
`c0` is the record cursor on entry.  The source function returns the final
`max_level`; the embedding returns the whole final state, whose
`max_level` component is that returned value. -/
def read_amr (numbl : Nat → Nat → Int) (ngridbound : Nat → Int)
    (add_n : Nat → Int) (ncpu nboundary ndim nlevelmax : Nat)
    (min_level : Int) (c0 : Nat) : AMRState :=
  (loopPairs nlevelmax (nboundary + ncpu)).foldl
    (read_amr_step numbl ngridbound add_n ncpu nboundary ndim min_level)
    ⟨c0, 0, 0, []⟩

/-- Levels (already rebased by `min_level`) of the `add` calls that
actually added at least one new grid. -/
def succLevels (st : AMRState) : List Int :=
  (st.calls.filter (fun c => c.n > 0)).map (·.level)

/-! ## Generic fold helpers -/

theorem list_foldl_inv {α σ : Type} (P : σ → Prop) (step : σ → α → σ) :
    ∀ (l : List α) (init : σ), P init →
      (∀ s a, a ∈ l → P s → P (step s a)) → P (l.foldl step init)
  | [], _, h0, _ => h0
  | a :: l, init, h0, hs =>
    list_foldl_inv P step l (step init a)
      (hs init a (List.mem_cons_self a l) h0)
      (fun s b hb => hs s b (List.mem_cons_of_mem a hb))

theorem le_foldl_max_init : ∀ (l : List Int) (a : Int), a ≤ l.foldl max a
  | [], _ => le_refl _
  | x :: l, a => le_trans (le_max_left a x) (le_foldl_max_init l (max a x))

theorem le_foldl_max_mem : ∀ (l : List Int) (a x : Int), x ∈ l → x ≤ l.foldl max a
  | y :: l, a, x, h => by
    rcases List.mem_cons.1 h with rfl | h
    · exact le_trans (le_max_right a x) (le_foldl_max_init l (max a x))
    · exact le_foldl_max_mem l (max a y) x h

theorem foldl_max_mem : ∀ (l : List Int) (a : Int), l.foldl max a ∈ a :: l
  | [], a => List.mem_cons_self a []
  | x :: l, a => by
    rcases List.mem_cons.1 (foldl_max_mem l (max a x)) with h | h
    · rcases max_choice a x with hm | hm <;> rw [List.foldl_cons, h, hm]
      · exact List.mem_cons_self _ _
      · exact List.mem_cons_of_mem _ (List.mem_cons_self _ _)
    · exact List.mem_cons_of_mem _ (List.mem_cons_of_mem _ h)

theorem foldl_max_le (l : List Int) (a b : Int) (ha : a ≤ b)
    (hl : ∀ x ∈ l, x ≤ b) : l.foldl max a ≤ b := by
  rcases List.mem_cons.1 (foldl_max_mem l a) with h | h
  · rw [h]; exact ha
  · exact hl _ h

/-! ## `read_amr`: shape of one loop iteration -/

theorem read_amr_step_of_ng_zero (numbl : Nat → Nat → Int)
    (ngridbound : Nat → Int) (add_n : Nat → Int)
    (ncpu nboundary ndim : Nat) (min_level : Int) (st : AMRState)
    (il ic : Nat)
    (h : ngOf numbl ngridbound ncpu nboundary il ic = 0) :
    read_amr_step numbl ngridbound add_n ncpu nboundary ndim min_level
      st (il, ic) = st := by
  simp [read_amr_step, h]

theorem read_amr_step_of_low_level (numbl : Nat → Nat → Int)
    (ngridbound : Nat → Int) (add_n : Nat → Int)
    (ncpu nboundary ndim : Nat) (min_level : Int) (st : AMRState)
    (il ic : Nat)
    (hng : ngOf numbl ngridbound ncpu nboundary il ic ≠ 0)
    (hlow : ¬ ((il : Int) ≥ min_level)) :
    read_amr_step numbl ngridbound add_n ncpu nboundary ndim min_level
      st (il, ic) =
      ⟨st.cursor + 3 + 3 + (1 + 2 * ndim + 2 ^ ndim + 2 ^ ndim + 2 ^ ndim),
       if ngOf numbl ngridbound ncpu nboundary il ic > st.buffer_size
       then ngOf numbl ngridbound ncpu nboundary il ic else st.buffer_size,
       st.max_level, st.calls⟩ := by
  simp only [read_amr_step, if_neg hng, if_neg hlow]

theorem read_amr_step_of_add (numbl : Nat → Nat → Int)
    (ngridbound : Nat → Int) (add_n : Nat → Int)
    (ncpu nboundary ndim : Nat) (min_level : Int) (st : AMRState)
    (il ic : Nat)
    (hng : ngOf numbl ngridbound ncpu nboundary il ic ≠ 0)
    (hge : (il : Int) ≥ min_level) :
    read_amr_step numbl ngridbound add_n ncpu nboundary ndim min_level
      st (il, ic) =
      ⟨st.cursor + 3 + 3 + (1 + 2 * ndim + 2 ^ ndim + 2 ^ ndim + 2 ^ ndim),
       if ngOf numbl ngridbound ncpu nboundary il ic > st.buffer_size
       then ngOf numbl ngridbound ncpu nboundary il ic else st.buffer_size,
       (if add_n st.calls.length > 0
        then max ((il : Int) - min_level) st.max_level else st.max_level),
       st.calls ++ [⟨ic + 1, (il : Int) - min_level,
         ngOf numbl ngridbound ncpu nboundary il ic,
         add_n st.calls.length⟩]⟩ := by
  simp only [read_amr_step, if_neg hng, if_pos hge]

theorem succLevels_append_one (buf maxl : Int) (c0 : Nat)
    (calls : List AddCall) (c : AddCall) :
    succLevels ⟨c0, buf, maxl, calls ++ [c]⟩ =
      succLevels ⟨c0, buf, maxl, calls⟩ ++
        (if c.n > 0 then [c.level] else []) := by
  by_cases h : c.n > 0 <;>
    simp [succLevels, List.filter_append, List.filter_cons, h]

/-- Core accounting invariant of `read_amr`: the running `max_level` is
always the `max`-fold (with default `0`) of the levels of the successful
insertions logged so far. -/
theorem read_amr_max_eq (numbl : Nat → Nat → Int) (ngridbound : Nat → Int)
    (add_n : Nat → Int) (ncpu nboundary ndim nlevelmax : Nat)
    (min_level : Int) (c0 : Nat) :
    (read_amr numbl ngridbound add_n ncpu nboundary ndim nlevelmax
        min_level c0).max_level =
      (succLevels (read_amr numbl ngridbound add_n ncpu nboundary ndim
        nlevelmax min_level c0)).foldl max 0 := by
  unfold read_amr
  refine list_foldl_inv
    (fun st => st.max_level = (succLevels st).foldl max 0) _ _ _ ?_ ?_
  · simp [succLevels]
  · intro s p _ hP
    obtain ⟨il, ic⟩ := p
    by_cases hng : ngOf numbl ngridbound ncpu nboundary il ic = 0
    · rw [read_amr_step_of_ng_zero _ _ _ _ _ _ _ _ _ _ hng]; exact hP
    · by_cases hge : (il : Int) ≥ min_level
      · rw [read_amr_step_of_add _ _ _ _ _ _ _ _ _ _ hng hge]
        show _ = (succLevels ⟨_, _, _, s.calls ++ [_]⟩).foldl max 0
        rw [succLevels_append_one]
        by_cases hn : add_n s.calls.length > 0
        · simp only [hn, if_pos, List.foldl_append, List.foldl_cons,
            List.foldl_nil, hP]
          exact max_comm _ _
        · simp only [hn, if_neg, List.foldl_append, List.foldl_nil]
          simpa using hP
      · rw [read_amr_step_of_low_level _ _ _ _ _ _ _ _ _ _ hng hge]
        exact hP

/-- Every successful-insertion level logged by `read_amr` is nonnegative
and bounded by `nlevelmax - min_level - 1` (insertions are only performed
for `min_level ≤ ilevel < nlevelmax`). -/
theorem read_amr_succLevels_bounds (numbl : Nat → Nat → Int)
    (ngridbound : Nat → Int) (add_n : Nat → Int)
    (ncpu nboundary ndim nlevelmax : Nat) (min_level : Int) (c0 : Nat) :
    ∀ x ∈ succLevels (read_amr numbl ngridbound add_n ncpu nboundary ndim
        nlevelmax min_level c0),
      0 ≤ x ∧ x ≤ (nlevelmax : Int) - min_level - 1 := by
  unfold read_amr
  refine list_foldl_inv
    (fun st => ∀ x ∈ succLevels st,
      0 ≤ x ∧ x ≤ (nlevelmax : Int) - min_level - 1) _ _ _ ?_ ?_
  · simp [succLevels]
  · intro s p hp hP
    obtain ⟨il, ic⟩ := p
    have hil : il < nlevelmax := (mem_loopPairs.1 hp).1
    by_cases hng : ngOf numbl ngridbound ncpu nboundary il ic = 0
    · rw [read_amr_step_of_ng_zero _ _ _ _ _ _ _ _ _ _ hng]; exact hP
    · by_cases hge : (il : Int) ≥ min_level
      · rw [read_amr_step_of_add _ _ _ _ _ _ _ _ _ _ hng hge]
        show ∀ x ∈ succLevels ⟨_, _, _, s.calls ++ [_]⟩, _
        rw [succLevels_append_one]
        intro x hx
        rcases List.mem_append.1 hx with hx | hx
        · exact hP x hx
        · have hxe : x = (il : Int) - min_level := by
            by_cases hn : add_n s.calls.length > 0 <;> simp [hn] at hx
            exact hx
          subst hxe
          have hil' : (il : Int) < (nlevelmax : Int) := by exact_mod_cast hil
          constructor
          · omega
          · omega
      · rw [read_amr_step_of_low_level _ _ _ _ _ _ _ _ _ _ hng hge]
        exact hP

/-! ## Claim theorems for `read_amr` -/

/-- C3: for every well-formed input (`min_level ≤ nlevelmax`), the value
returned by `read_amr` is at most `nlevelmax - min_level`, and equals the
maximum of `level - min_level` over exactly those index insertions that
actually added at least one new grid (it is the `max`-fold of those
levels, and when at least one such insertion exists it is attained by one
of them and dominates all of them). -/
theorem read_amr_returns_realized_depth (numbl : Nat → Nat → Int)
    (ngridbound : Nat → Int) (add_n : Nat → Int)
    (ncpu nboundary ndim nlevelmax : Nat) (min_level : Int) (c0 : Nat)
    (h : min_level ≤ (nlevelmax : Int)) :
    (read_amr numbl ngridbound add_n ncpu nboundary ndim nlevelmax
        min_level c0).max_level ≤ (nlevelmax : Int) - min_level ∧
    (read_amr numbl ngridbound add_n ncpu nboundary ndim nlevelmax
        min_level c0).max_level =
      (succLevels (read_amr numbl ngridbound add_n ncpu nboundary ndim
        nlevelmax min_level c0)).foldl max 0 ∧
    (succLevels (read_amr numbl ngridbound add_n ncpu nboundary ndim
        nlevelmax min_level c0) ≠ [] →
      (read_amr numbl ngridbound add_n ncpu nboundary ndim nlevelmax
          min_level c0).max_level ∈
        succLevels (read_amr numbl ngridbound add_n ncpu nboundary ndim
          nlevelmax min_level c0) ∧
      ∀ x ∈ succLevels (read_amr numbl ngridbound add_n ncpu nboundary ndim
          nlevelmax min_level c0),
        x ≤ (read_amr numbl ngridbound add_n ncpu nboundary ndim nlevelmax
          min_level c0).max_level) := by
  have heq := read_amr_max_eq numbl ngridbound add_n ncpu nboundary ndim
    nlevelmax min_level c0
  have hnn := read_amr_succLevels_bounds numbl ngridbound add_n ncpu
    nboundary ndim nlevelmax min_level c0
  refine ⟨?_, heq, ?_⟩
  · rw [heq]
    refine foldl_max_le _ _ _ (by omega) ?_
    intro x hx
    have := (hnn x hx).2
    omega
  · intro hne
    constructor
    · rw [heq]
      rcases List.mem_cons.1
        (foldl_max_mem (succLevels (read_amr numbl ngridbound add_n ncpu
          nboundary ndim nlevelmax min_level c0)) 0) with h0 | hmem
      · -- the fold collapsed to the default 0: the (nonempty) list's head
        -- is nonnegative and bounded by the fold, hence equal to 0
        rcases hl : succLevels (read_amr numbl ngridbound add_n ncpu
          nboundary ndim nlevelmax min_level c0) with _ | ⟨x, t⟩
        · exact absurd hl hne
        · have hx1 : (0 : Int) ≤ x := by
            have := hnn x (by rw [hl]; exact List.mem_cons_self x t)
            exact this.1
          rw [hl] at h0
          have hx2 : x ≤ 0 := by
            have := le_foldl_max_mem (x :: t) 0 x (List.mem_cons_self x t)
            omega
          have hx0 : x = 0 := le_antisymm hx2 hx1
          rw [h0, ← hx0]
          exact List.mem_cons_self x t
      · exact hmem
    · intro x hx
      rw [heq]
      exact le_foldl_max_mem _ 0 x hx

/-- Witness for C3 on a concrete run: 2 levels, 1 cpu, one grid per block,
every `add` reporting one new oct; the realized depth is bounded by
`nlevelmax - min_level`. -/
theorem read_amr_returns_realized_depth_witness :
    (0 : Int) ≤ ((2 : Nat) : Int) ∧
    (read_amr (fun _ _ => 1) (fun _ => 0) (fun _ => 1) 1 0 1 2 0 0).max_level
        ≤ ((2 : Nat) : Int) - 0 :=
  ⟨by decide,
   (read_amr_returns_realized_depth (fun _ _ => 1) (fun _ => 0) (fun _ => 1)
     1 0 1 2 0 0 (by decide)).1⟩

/-- C5: a `(level, domain)` iteration of `read_amr` whose grid count `ng`
is zero (`numbl` entry for a real domain, boundary-count entry for a ghost
domain) leaves the whole state unchanged: no records are skipped or read,
the file cursor is exactly unchanged, and no `add` call is logged. -/
theorem read_amr_zero_count_skips_block (numbl : Nat → Nat → Int)
    (ngridbound : Nat → Int) (add_n : Nat → Int)
    (ncpu nboundary ndim : Nat) (min_level : Int) (st : AMRState)
    (il ic : Nat)
    (h : ngOf numbl ngridbound ncpu nboundary il ic = 0) :
    read_amr_step numbl ngridbound add_n ncpu nboundary ndim min_level
      st (il, ic) = st :=
  read_amr_step_of_ng_zero numbl ngridbound add_n ncpu nboundary ndim
    min_level st il ic h

/-- Witness for C5: concrete empty block (`numbl 0 0 = 0`) leaves the
concrete state untouched. -/
theorem read_amr_zero_count_skips_block_witness :
    ngOf (fun _ _ => 0) (fun _ => 0) 1 0 0 0 = 0 ∧
    read_amr_step (fun _ _ => 0) (fun _ => 0) (fun _ => 1) 1 0 3 0
      ⟨5, 2, 3, []⟩ (0, 0) = ⟨5, 2, 3, []⟩ :=
  ⟨by decide,
   read_amr_zero_count_skips_block (fun _ _ => 0) (fun _ => 0) (fun _ => 1)
     1 0 3 0 ⟨5, 2, 3, []⟩ 0 0 (by decide)⟩

/-- C10: `read_amr` returns 0 whenever no index insertion added a new
grid: the returned depth is the `max`-fold of the successful insertion
levels, so an empty successful-insertion log yields exactly 0. -/
theorem read_amr_zero_when_no_insertion (numbl : Nat → Nat → Int)
    (ngridbound : Nat → Int) (add_n : Nat → Int)
    (ncpu nboundary ndim nlevelmax : Nat) (min_level : Int) (c0 : Nat)
    (h : succLevels (read_amr numbl ngridbound add_n ncpu nboundary ndim
        nlevelmax min_level c0) = []) :
    (read_amr numbl ngridbound add_n ncpu nboundary ndim nlevelmax
        min_level c0).max_level = 0 := by
  rw [read_amr_max_eq, h]
  rfl

/-- Witness for C10: a run whose blocks are all populated but whose `add`
calls all report zero new grids still returns depth 0. -/
theorem read_amr_zero_when_no_insertion_witness :
    succLevels (read_amr (fun _ _ => 1) (fun _ => 0) (fun _ => 0) 1 0 1 2 0 0)
      = [] ∧
    (read_amr (fun _ _ => 1) (fun _ => 0) (fun _ => 0) 1 0 1 2 0 0).max_level
      = 0 :=
  ⟨by decide,
   read_amr_zero_when_no_insertion (fun _ _ => 1) (fun _ => 0) (fun _ => 0)
     1 0 1 2 0 0 (by decide)⟩

/-! ## `read_offset`: shape of one loop iteration -/

theorem read_offset_step_of_zero (f : OffsetFile) (ml Ns : Int)
    (st : OffsetState) (il ic : Nat)
    (h : f.intAt (st.pos + INT_REC_SIZE) = 0) :
    read_offset_step f ml Ns st (il, ic) =
      .ok { st with pos := st.pos + 2 * INT_REC_SIZE } := by
  simp [read_offset_step, h]

theorem read_offset_step_of_mismatch (f : OffsetFile) (ml Ns : Int)
    (st : OffsetState) (il ic : Nat)
    (hc : f.intAt (st.pos + INT_REC_SIZE) ≠ 0)
    (hl : f.intAt st.pos ≠ (il : Int) + 1) :
    read_offset_step f ml Ns st (il, ic) =
      .error ⟨f.name, f.intAt st.pos, il⟩ := by
  simp [read_offset_step, hc, hl]

theorem read_offset_step_of_match_low (f : OffsetFile) (ml Ns : Int)
    (st : OffsetState) (il ic : Nat)
    (hc : f.intAt (st.pos + INT_REC_SIZE) ≠ 0)
    (hl : f.intAt st.pos = (il : Int) + 1)
    (hlow : ¬ ((il : Int) ≥ ml)) :
    read_offset_step f ml Ns st (il, ic) =
      .ok { st with pos := st.pos + 2 * INT_REC_SIZE
                        + skip_len Ns (f.intAt (st.pos + INT_REC_SIZE)) } := by
  simp [read_offset_step, hc, hl, hlow]

theorem read_offset_step_of_match_write (f : OffsetFile) (ml Ns : Int)
    (st : OffsetState) (il ic : Nat)
    (hc : f.intAt (st.pos + INT_REC_SIZE) ≠ 0)
    (hl : f.intAt st.pos = (il : Int) + 1)
    (hge : (il : Int) ≥ ml) :
    read_offset_step f ml Ns st (il, ic) =
      .ok ⟨st.pos + 2 * INT_REC_SIZE
             + skip_len Ns (f.intAt (st.pos + INT_REC_SIZE)),
           upd2 st.offset ic (((il : Int) - ml).toNat)
             (st.pos + 2 * INT_REC_SIZE),
           upd2 st.level_count ic (((il : Int) - ml).toNat)
             (f.intAt (st.pos + INT_REC_SIZE))⟩ := by
  simp [read_offset_step, hc, hl, hge]

/-- Whenever a block's header is coherent (`file_ilevel = ilevel + 1`,
nonzero count), the iteration succeeds and leaves the cursor exactly past
the block's payload, whatever the `min_level` comparison said. -/
theorem read_offset_step_pos_of_match (f : OffsetFile) (ml Ns : Int)
    (st : OffsetState) (il ic : Nat)
    (hc : f.intAt (st.pos + INT_REC_SIZE) ≠ 0)
    (hl : f.intAt st.pos = (il : Int) + 1) :
    ∃ st', read_offset_step f ml Ns st (il, ic) = .ok st' ∧
      st'.pos = st.pos + 2 * INT_REC_SIZE
                  + skip_len Ns (f.intAt (st.pos + INT_REC_SIZE)) := by
  by_cases hge : (il : Int) ≥ ml
  · exact ⟨_, read_offset_step_of_match_write f ml Ns st il ic hc hl hge, rfl⟩
  · exact ⟨_, read_offset_step_of_match_low f ml Ns st il ic hc hl hge, rfl⟩

/-! ## Claim theorem for C4 -/

/-- C4: a present block (`file_ncache ≠ 0`, coherent level id) whose level
is below `min_level` leaves both output tables untouched — every offset
entry keeps whatever value it had (`-1` if never written) and every
record-count entry likewise (`0` if never written) — while the file
cursor is still advanced exactly past the block's two header ints and its
payload, so later blocks are indexed correctly. -/
theorem read_offset_low_level_block_skipped (f : OffsetFile) (ml Ns : Int)
    (st : OffsetState) (il ic : Nat)
    (hlow : (il : Int) < ml)
    (hc : f.intAt (st.pos + INT_REC_SIZE) ≠ 0)
    (hl : f.intAt st.pos = (il : Int) + 1) :
    read_offset_step f ml Ns st (il, ic) =
      .ok { st with pos := st.pos + 2 * INT_REC_SIZE
                        + skip_len Ns (f.intAt (st.pos + INT_REC_SIZE)) } :=
  read_offset_step_of_match_low f ml Ns st il ic hc hl (by omega)

/-- Witness for C4: a concrete present block below `min_level` leaves the
initial `-1`/`0` tables unchanged and advances the cursor by the two
header records plus `skip_len Nskip ncache` = 24 + 8·(2·8+8) = 216. -/
theorem read_offset_low_level_block_skipped_witness :
    ((0 : Int) < 1) ∧
    ((fun q => if q = INT_REC_SIZE then (2 : Int) else 1) INT_REC_SIZE ≠ 0) ∧
    read_offset_step ⟨fun q => if q = INT_REC_SIZE then 2 else 1, "amr"⟩ 1 8
      ⟨0, fun _ _ => -1, fun _ _ => 0⟩ (0, 0) =
      .ok ⟨216, fun _ _ => -1, fun _ _ => 0⟩ := by
  refine ⟨by decide, by decide, ?_⟩
  have h := read_offset_low_level_block_skipped
    ⟨fun q => if q = INT_REC_SIZE then 2 else 1, "amr"⟩ 1 8
    ⟨0, fun _ _ => -1, fun _ _ => 0⟩ 0 0 (by decide) (by decide) (by decide)
  rw [h]
  norm_num [skip_len, INT_REC_SIZE, INT32_SIZE, INT64_SIZE, DOUBLE_SIZE]

/-! ## Invariant machinery for C7 -/

theorem list_foldlM_except_inv {α σ ε : Type} (P : σ → Prop)
    (step : σ → α → Except ε σ) :
    ∀ (l : List α) (init : σ), P init →
      (∀ s a s', a ∈ l → P s → step s a = .ok s' → P s') →
      ∀ s', l.foldlM step init = .ok s' → P s'
  | [], init, h0, _, s', hr => by
      simp only [List.foldlM_nil] at hr
      cases hr
      exact h0
  | a :: l, init, h0, hs, s', hr => by
      simp only [List.foldlM_cons] at hr
      cases hstep : step init a with
      | error e => rw [hstep] at hr; cases hr
      | ok s1 =>
          rw [hstep] at hr
          exact list_foldlM_except_inv P step l s1
            (hs init a s1 (List.mem_cons_self a l) h0 hstep)
            (fun s b s'' hb => hs s b s'' (List.mem_cons_of_mem a hb)) s' hr

/-- C7: every `(domain, level)` entry of the pair of tables returned by
`read_offset` satisfies: the offset entry differs from the `-1` absence
sentinel iff the paired record-count entry is nonzero.  The
well-formedness hypotheses say the entry cursor and the header integers
are nonnegative (int reads of a real file) and `Nskip` is either the `-1`
default sentinel or nonnegative. -/
theorem read_offset_tables_paired (f : OffsetFile) (p0 ml dom nvar : Int)
    (ndim nlevelmax ncpu nboundary : Nat) (Ns : Int)
    (hp0 : 0 ≤ p0) (hnv : 0 ≤ nvar) (hns : Ns = -1 ∨ 0 ≤ Ns)
    (hint : ∀ q, 0 ≤ f.intAt q) :
    ∀ st', read_offset f p0 ml dom nvar ndim nlevelmax ncpu nboundary Ns
        = .ok st' →
      ∀ i l, st'.offset i l ≠ -1 ↔ st'.level_count i l ≠ 0 := by
  intro st' hrun i l
  have hNs' : 0 ≤ (if Ns = -1 then (2 : Int) ^ ndim * nvar else Ns) := by
    rcases hns with h | h
    · rw [if_pos h]; positivity
    · by_cases he : Ns = -1
      · omega
      · rw [if_neg he]; exact h
  rw [read_offset] at hrun
  refine (list_foldlM_except_inv
    (fun st => 0 ≤ st.pos ∧ ∀ i l, (st.offset i l ≠ -1 ↔ st.level_count i l ≠ 0))
    _ _ _ ⟨hp0, by intro i l; simp⟩ ?_ st' hrun).2 i l
  intro s p s' _ hP hstep
  obtain ⟨il, ic⟩ := p
  have hposrec : (0 : Int) ≤ 2 * INT_REC_SIZE := by decide
  by_cases hc : f.intAt (s.pos + INT_REC_SIZE) = 0
  · rw [read_offset_step_of_zero f ml _ s il ic hc] at hstep
    cases hstep
    refine ⟨?_, hP.2⟩
    show 0 ≤ s.pos + 2 * INT_REC_SIZE
    omega
  · by_cases hl : f.intAt s.pos = (il : Int) + 1
    · have hskip : 0 ≤ skip_len (if Ns = -1 then (2 : Int) ^ ndim * nvar else Ns)
          (f.intAt (s.pos + INT_REC_SIZE)) :=
        skip_len_nonneg hNs' (hint _)
      by_cases hge : (il : Int) ≥ ml
      · rw [read_offset_step_of_match_write f ml _ s il ic hc hl hge] at hstep
        cases hstep
        refine ⟨by dsimp; omega, ?_⟩
        intro i' l'
        dsimp only [upd2]
        by_cases hij : i' = ic ∧ l' = ((il : Int) - ml).toNat
        · rw [if_pos hij, if_pos hij]
          constructor
          · intro _; exact hc
          · intro _
            have := hP.1
            omega
        · rw [if_neg hij, if_neg hij]
          exact hP.2 i' l'
      · rw [read_offset_step_of_match_low f ml _ s il ic hc hl hge] at hstep
        cases hstep
        exact ⟨by dsimp; omega, hP.2⟩
    · rw [read_offset_step_of_mismatch f ml _ s il ic hc hl] at hstep
      cases hstep

/-- Witness for C7 on a concrete run (1 level, 1 cpu, one present coherent
block): the run succeeds and the `(0,0)` entries satisfy the pairing. -/
theorem read_offset_tables_paired_witness :
    isErr (read_offset ⟨fun q => if q = 0 then 1 else 3, "amr"⟩ 0 0 1 2 3 1 1 0
      (-1)) = false ∧
    (∀ st', read_offset ⟨fun q => if q = 0 then 1 else 3, "amr"⟩ 0 0 1 2 3 1 1 0
        (-1) = .ok st' →
      (st'.offset 0 0 ≠ -1 ↔ st'.level_count 0 0 ≠ 0)) := by
  constructor
  · rfl
  · intro st' hrun
    exact read_offset_tables_paired ⟨fun q => if q = 0 then 1 else 3, "amr"⟩
      0 0 1 2 3 1 1 0 (-1) (by decide) (by decide) (Or.inl rfl)
      (by intro q; dsimp only; split <;> decide) st' hrun 0 0

/-! ## C2: the fault condition of `read_offset`

The data section is a sequence of blocks consumed in order; block `k`
(0-based) belongs to loop iteration `(k / ncpu_and_bound,
k % ncpu_and_bound)`.  `headerPos` gives the byte position of each block
header independently of the table-building machinery, and `badBlock`
states the structural-integrity fault condition for block `k`. -/

/-- Byte position of the k-th block header of the data section: each block
advances the cursor past its two header ints, and — unless its declared
record count is zero — past its payload of `Nskip` records. -/
def headerPos (f : OffsetFile) (Nskip p0 : Int) : Nat → Int
  | 0 => p0
  | k + 1 =>
    let p := headerPos f Nskip p0 k
    let c := f.intAt (p + INT_REC_SIZE)
    p + 2 * INT_REC_SIZE + (if c = 0 then 0 else skip_len Nskip c)

/-- Block `k` of the data section is present (nonzero declared record
count) and its declared level id disagrees with the loop-expected level
`k / ncpu_and_bound + 1`. -/
def badBlock (f : OffsetFile) (Nskip p0 : Int) (C : Nat) (k : Nat) : Prop :=
  f.intAt (headerPos f Nskip p0 k + INT_REC_SIZE) ≠ 0 ∧
  f.intAt (headerPos f Nskip p0 k) ≠ ((k / C : Nat) : Int) + 1

theorem loopPairs_eq_map_range (L C : Nat) :
    loopPairs L C = (List.range (L * C)).map (fun k => (k / C, k % C)) := by
  rcases Nat.eq_zero_or_pos C with hC | hC
  · subst hC
    simp [loopPairs]
  · induction L with
    | zero => simp [loopPairs]
    | succ n ih =>
        have h2 : (n + 1) * C = n * C + C := by ring
        have htail : ([n] : List Nat).flatMap
              (fun il => (List.range C).map (fun ic => (il, ic)))
            = ((List.range C).map (n * C + ·)).map
                (fun k => (k / C, k % C)) := by
          simp only [List.flatMap_cons, List.flatMap_nil, List.append_nil,
            List.map_map]
          refine List.map_congr_left ?_
          intro ic hic
          have hic' : ic < C := List.mem_range.1 hic
          have hdiv : (n * C + ic) / C = n := by
            rw [Nat.add_comm, Nat.add_mul_div_right _ _ hC,
              Nat.div_eq_of_lt hic']
            omega
          have hmod : (n * C + ic) % C = ic := by
            rw [Nat.add_comm, Nat.add_mul_mod_self_right,
              Nat.mod_eq_of_lt hic']
          simp [Function.comp, hdiv, hmod]
        rw [loopPairs, List.range_succ, List.flatMap_append, ← loopPairs, ih,
          htail, h2, List.range_add, List.map_append]

/-- Error behaviour of the remaining `n` blocks starting at block `j`,
when the state's cursor sits at block `j`'s header: the run fails iff one
of those blocks is bad. -/
theorem runBlocks_err_iff (f : OffsetFile) (ml Ns p0 : Int) (C : Nat) :
    ∀ (n j : Nat) (st : OffsetState), st.pos = headerPos f Ns p0 j →
      (isErr ((List.range' j n).foldlM
          (fun s k => read_offset_step f ml Ns s (k / C, k % C)) st) = true ↔
        ∃ k, j ≤ k ∧ k < j + n ∧ badBlock f Ns p0 C k) := by
  intro n
  induction n with
  | zero =>
      intro j st _
      constructor
      · intro h
        rw [show List.range' j 0 = [] from rfl, List.foldlM_nil,
          show isErr (pure st : Except AMRDataError OffsetState) = false
            from rfl] at h
        cases h
      · rintro ⟨k, h1, h2, _⟩
        omega
  | succ n ih =>
      intro j st hpos
      rw [List.range'_succ, List.foldlM_cons]
      by_cases hc : f.intAt (st.pos + INT_REC_SIZE) = 0
      · rw [read_offset_step_of_zero f ml Ns st (j / C) (j % C) hc]
        have hnotbad : ¬ badBlock f Ns p0 C j := by
          intro hb
          exact hb.1 (by rw [← hpos]; exact hc)
        have hpos' : st.pos + 2 * INT_REC_SIZE = headerPos f Ns p0 (j + 1) := by
          show _ = headerPos f Ns p0 j + 2 * INT_REC_SIZE
              + (if f.intAt (headerPos f Ns p0 j + INT_REC_SIZE) = 0 then 0
                 else skip_len Ns (f.intAt (headerPos f Ns p0 j + INT_REC_SIZE)))
          rw [← hpos, if_pos hc]
          ring
        rw [show (Except.ok { st with pos := st.pos + 2 * INT_REC_SIZE } >>=
              (List.range' (j+1) n).foldlM
                (fun s k => read_offset_step f ml Ns s (k / C, k % C)))
            = (List.range' (j+1) n).foldlM
                (fun s k => read_offset_step f ml Ns s (k / C, k % C))
                { st with pos := st.pos + 2 * INT_REC_SIZE } from rfl]
        rw [ih (j + 1) _ hpos']
        constructor
        · rintro ⟨k, h1, h2, h3⟩
          exact ⟨k, by omega, by omega, h3⟩
        · rintro ⟨k, h1, h2, h3⟩
          have hkj : k ≠ j := fun he => hnotbad (he ▸ h3)
          exact ⟨k, by omega, by omega, h3⟩
      · by_cases hl : f.intAt st.pos = ((j / C : Nat) : Int) + 1
        · obtain ⟨st', hstep, hpos1⟩ :=
            read_offset_step_pos_of_match f ml Ns st (j / C) (j % C) hc hl
          rw [hstep]
          have hnotbad : ¬ badBlock f Ns p0 C j := by
            intro hb
            exact hb.2 (by rw [← hpos]; exact hl)
          have hpos' : st'.pos = headerPos f Ns p0 (j + 1) := by
            rw [hpos1]
            show _ = headerPos f Ns p0 j + 2 * INT_REC_SIZE
                + (if f.intAt (headerPos f Ns p0 j + INT_REC_SIZE) = 0 then 0
                   else skip_len Ns (f.intAt (headerPos f Ns p0 j + INT_REC_SIZE)))
            rw [← hpos, if_neg hc]
          rw [show (Except.ok st' >>=
                (List.range' (j+1) n).foldlM
                  (fun s k => read_offset_step f ml Ns s (k / C, k % C)))
              = (List.range' (j+1) n).foldlM
                  (fun s k => read_offset_step f ml Ns s (k / C, k % C)) st'
              from rfl]
          rw [ih (j + 1) st' hpos']
          constructor
          · rintro ⟨k, h1, h2, h3⟩
            exact ⟨k, by omega, by omega, h3⟩
          · rintro ⟨k, h1, h2, h3⟩
            have hkj : k ≠ j := fun he => hnotbad (he ▸ h3)
            exact ⟨k, by omega, by omega, h3⟩
        · rw [read_offset_step_of_mismatch f ml Ns st (j / C) (j % C) hc hl]
          have hbad : badBlock f Ns p0 C j := by
            constructor
            · rw [hpos] at hc; exact hc
            · rw [hpos] at hl; exact hl
          constructor
          · intro _
            exact ⟨j, le_refl j, by omega, hbad⟩
          · intro _
            rfl

/-- C2: `read_offset` raises the structural-integrity fault
(`YTIllDefinedAMRData`, the model's only fault) iff some block of the data
section is present (nonzero declared record count) with a declared level
id different from the loop-expected `current_level + 1`; in particular a
file in which every block's declared level id matches, or whose
mislabeled blocks all have a zero declared record count, never faults. -/
theorem read_offset_fault_iff (f : OffsetFile) (p0 ml dom nvar : Int)
    (ndim nlevelmax ncpu nboundary : Nat) (Ns : Int) :
    isErr (read_offset f p0 ml dom nvar ndim nlevelmax ncpu nboundary Ns)
        = true ↔
      ∃ k, k < nlevelmax * (nboundary + ncpu) ∧
        badBlock f (if Ns = -1 then (2 : Int) ^ ndim * nvar else Ns) p0
          (nboundary + ncpu) k := by
  rw [read_offset, loopPairs_eq_map_range, List.foldlM_map,
    List.range_eq_range']
  rw [runBlocks_err_iff f ml _ p0 (nboundary + ncpu)
    (nlevelmax * (nboundary + ncpu)) 0 _ rfl]
  constructor
  · rintro ⟨k, _, h2, h3⟩
    exact ⟨k, by omega, h3⟩
  · rintro ⟨k, h2, h3⟩
    exact ⟨k, Nat.zero_le k, by omega, h3⟩

/-- Sanity check for C2 on a concrete mislabeled file: one level, one cpu,
one present block whose declared level id is 7 instead of 1: the run
faults, and the fault predicate holds at block 0. -/
theorem read_offset_mislabeled_block_faults :
    isErr (read_offset ⟨fun q => if q = 0 then 7 else 3, "amr"⟩ 0 0 1 2 3 1 1 0
      (-1)) = true :=
  rfl

/-! ## `fill_hydro` -/

/-- Abstract data-section file for `fill_hydro`: `vecAt p` is an opaque
token standing for the bytes of the record that
`read_vector_inplace('d', ...)` decodes when the cursor is at byte `p`. -/
structure HydroFile where
  vecAt : Int → Int

/-- One in-place vector read: sub-cell index `i`, buffer slot `j` (the
read goes to `buffer[0, i, j]`), the byte position it was issued at, and
the token of the record decoded there. -/
structure ReadEvt where
  subcell : Nat
  slot : Nat
  posn : Int
  tok : Int
deriving DecidableEq

/-- Loop body of the jump-table construction: state is
`(jumps array, next slot j, running jump_len)`. -/
def jumpsStep (fields : List String) (acc : List Int × Nat × Int)
    (field : String) : List Int × Nat × Int :=
  if field ∈ fields then (acc.1.set acc.2.1 acc.2.2, acc.2.1 + 1, 0)
  else (acc.1, acc.2.1, acc.2.2 + 1)

/-- The jump table of `fill_hydro`: an `nfields_selected + 1` array of
zeros, filled by walking `all_fields` in on-disk order (a requested field
stores the accumulated skip distance at the next slot and resets it; an
unrequested field increments it), with the final `jumps[j] = jump_len`
write after the walk.  Also returns the final `j` (number of matches). -/
def buildJumps (all_fields fields : List String) : List Int × Nat :=
  let m := fields.length
  let r := all_fields.foldl (jumpsStep fields) (List.replicate (m + 1) 0, 0, 0)
  (r.1.set r.2.1 r.2.2, r.2.1)

/-- Inner loop over the selected fields of one sub-cell: add the slot's
jump-table entry to the pending jump, apply it as a relative seek when
strictly positive, then read one record in place (the cursor advances by
one record).  `js` is the list of remaining jump-table entries, `j` the
slot index of its head.  Returns the reads plus the final
`(cursor, jump_len)`. -/
def decodeSlots (f : HydroFile) (nc : Int) (k : Nat) :
    List Int → Nat → Int → Int → List ReadEvt × Int × Int
  | [], _, pos, jump_len => ([], pos, jump_len)
  | g :: rest, j, pos, jump_len =>
    let jl1 := jump_len + g
    let pj : Int × Int := if jl1 > 0 then (pos + skip_len jl1 nc, 0)
                          else (pos, jl1)
    let evt : ReadEvt := ⟨k, j, pj.1, f.vecAt pj.1⟩
    let r := decodeSlots f nc k rest (j + 1) (pj.1 + skip_len 1 nc) pj.2
    (evt :: r.1, r.2)

/-- Loop over the `2^ndim` sub-cells; after each sub-cell's selected
fields, the trailing jump-table entry is added to the pending jump. -/
def decodeCells (f : HydroFile) (nc : Int) (jsMain : List Int)
    (trail : Int) : Nat → Nat → Int → Int → List ReadEvt × Int × Int
  | 0, _, pos, jump_len => ([], pos, jump_len)
  | t + 1, k, pos, jump_len =>
    let r1 := decodeSlots f nc k jsMain 0 pos jump_len
    let r2 := decodeCells f nc jsMain trail t (k + 1) r1.2.1 (r1.2.2 + trail)
    (r1.1 ++ r2.1, r2.2)

/-- Decode of one `(level, domain)` block of `fill_hydro`: build the jump
table, seek once to `offset + skip_len(first_field_index, nc)`, set the
pending jump to `-first_field_index` (cancelling that seek for the first
read), then run the sub-cell loop.  Returns the in-place reads
performed. -/
def decodeBlock (f : HydroFile) (all_fields fields : List String)
    (twotondim : Nat) (offset nc : Int) : List ReadEvt :=
  let m := fields.length
  let js := (buildJumps all_fields fields).1
  let first_field_index := js.getD 0 0
  let pos0 := offset + skip_len first_field_index nc
  (decodeCells f nc (js.take m) (js.getD m 0) twotondim 0 pos0
    (-first_field_index)).1

/-- Data of buffer column `i` for one block: the tokens of the reads that
went to slot `i`, one per sub-cell. -/
def column (evts : List ReadEvt) (i : Nat) : List Int :=
  (evts.filter (fun e => e.slot = i)).map (fun e => e.tok)

/-- The `tmp` dictionary handed to the octree container:
`tmp[field] = buffer[:, :, i]` for `i, field in enumerate(fields)`
(a later duplicate name overwrites an earlier one, as in a Python dict). -/
def tmpOf (evts : List ReadEvt) (fields : List String) :
    String → Option (List Int) :=
  fields.enum.foldl
    (fun d p => fun s => if s = p.2 then some (column evts p.1) else d s)
    (fun _ => none)

/-- Which octree entry point a block's data was handed to. -/
inductive Route where
  | plain : Route
  | withDomain : Nat → Route
deriving DecidableEq

/-- One handoff to the octree container (`fill_level` or
`fill_level_with_domain`): the level and domain of the block that was just
decoded, its record count, the entry point used, and the aliased field
dictionary. -/
structure Handoff where
  ilevel : Nat
  icpu : Nat
  nc : Int
  route : Route
  tmp : String → Option (List Int)

/-- `def fill_hydro(f, offsets, level_count, cpu_enumerator, levels,
cell_inds, file_inds, ndim, all_fields, fields, tr, oct_handler,
domains)`: for each level and each selected domain, skip absent blocks
(`nc == 0` or offset sentinel `-1`), decode the block, and hand the
aliased buffer columns to the octree container — through
`fill_level_with_domain(..., domain=icpu+1)` when more than one domain is
selected, else through `fill_level`.  The cell-selection arrays, `tr` and
`domains` are opaque pass-through arguments for the container and carry
no information decoded here; each processed block starts with an absolute
seek, so no cursor state survives between blocks. -/
def fill_hydro (f : HydroFile) (offsets level_count : Nat → Nat → Int)
    (cpu_list : List Nat) (ndim : Nat) (all_fields fields : List String)
    (nlevels : Nat) : List Handoff :=
  let twotondim := 2 ^ ndim
  let ncpu_selected := cpu_list.length
  (List.range nlevels).flatMap (fun ilevel =>
    cpu_list.filterMap (fun icpu =>
      let nc := level_count icpu ilevel
      if nc = 0 then none
      else
        let offset := offsets icpu ilevel
        if offset = -1 then none
        else
          some { ilevel := ilevel, icpu := icpu, nc := nc,
                 route := if ncpu_selected > 1 then .withDomain (icpu + 1)
                          else .plain,
                 tmp := tmpOf (decodeBlock f all_fields fields twotondim
                   offset nc) fields }))

/-- Modelled from the spec: one sub-cell of the naive reference reader —
walk `all_fields` in on-disk order from byte `pos`, skipping each
unrequested field record one by one (each record advances the cursor by
one record length) and reading each requested field record at the byte
position it occupies on disk; slot numbering follows the order requested
fields are encountered on disk. -/
def naiveFieldWalk (f : HydroFile) (fields : List String) (nc : Int)
    (k : Nat) : List String → Nat → Int → List ReadEvt × Int
  | [], _, pos => ([], pos)
  | fld :: rest, j, pos =>
    if fld ∈ fields then
      let evt : ReadEvt := ⟨k, j, pos, f.vecAt pos⟩
      let r := naiveFieldWalk f fields nc k rest (j + 1) (pos + skip_len 1 nc)
      (evt :: r.1, r.2)
    else
      naiveFieldWalk f fields nc k rest j (pos + skip_len 1 nc)

/-- Modelled from the spec: the naive reference plan walks the sub-cells
in order, each one walking every field record of `all_fields`. -/
def naiveCellWalk (f : HydroFile) (all_fields fields : List String)
    (nc : Int) : Nat → Nat → Int → List ReadEvt
  | 0, _, _ => []
  | t + 1, k, pos =>
    let r := naiveFieldWalk f fields nc k all_fields 0 pos
    r.1 ++ naiveCellWalk f all_fields fields nc t (k + 1) r.2

/-- Modelled from the spec: the naive reference plan for one block —
start at the block's `offset` and read every requested field record of
every sub-cell from exactly the byte position it occupies on disk,
skipping every unrequested field record one by one. -/
def naiveBlockSpec (f : HydroFile) (all_fields fields : List String)
    (twotondim : Nat) (offset nc : Int) : List ReadEvt :=
  naiveCellWalk f all_fields fields nc twotondim 0 offset

/-- Maximum of a list of integers (`foldl max` from the head). -/
def listMax (l : List Int) : Int := l.foldl max l.headI

/-- `level_count.max()`: the maximum entry of the full record-count table
of shape `(rows, cols)`; the decode buffer's first dimension. -/
def tableMax (t : Nat → Nat → Int) (rows cols : Nat) : Int :=
  listMax ((List.range rows).flatMap (fun i => (List.range cols).map (t i)))

/-! ## Jump-table theory

`diskIdxs fields fs` lists the on-disk indices (within `fs`) of the
fields belonging to `fields`; `gapsFrom fields jl fs` is the gap
description that the jump-table construction computes (entries written,
plus the trailing pending distance), starting from pending distance
`jl`. -/

def diskIdxs (fields : List String) : List String → List Nat
  | [] => []
  | fld :: rest =>
    if fld ∈ fields then 0 :: (diskIdxs fields rest).map (· + 1)
    else (diskIdxs fields rest).map (· + 1)

def gapsFrom (fields : List String) : Int → List String → List Int × Int
  | jl, [] => ([], jl)
  | jl, fld :: rest =>
    if fld ∈ fields then
      ((jl :: (gapsFrom fields 0 rest).1, (gapsFrom fields 0 rest).2))
    else gapsFrom fields (jl + 1) rest

/-- Write a run of values at consecutive indices of an array. -/
def setSeq (arr : List Int) (j : Nat) : List Int → List Int
  | [] => arr
  | w :: ws => setSeq (arr.set j w) (j + 1) ws

theorem jumps_foldl_eq (fields : List String) :
    ∀ (fs : List String) (arr : List Int) (j : Nat) (jl : Int),
      fs.foldl (jumpsStep fields) (arr, j, jl) =
        (setSeq arr j (gapsFrom fields jl fs).1,
         j + (gapsFrom fields jl fs).1.length,
         (gapsFrom fields jl fs).2)
  | [], arr, j, jl => by simp [gapsFrom, setSeq]
  | fld :: rest, arr, j, jl => by
      rw [List.foldl_cons]
      by_cases h : fld ∈ fields
      · rw [show jumpsStep fields (arr, j, jl) fld
              = (arr.set j jl, j + 1, 0) by simp [jumpsStep, h]]
        rw [jumps_foldl_eq fields rest (arr.set j jl) (j + 1) 0]
        simp only [gapsFrom, if_pos h]
        rw [show setSeq arr j (jl :: (gapsFrom fields 0 rest).1)
              = setSeq (arr.set j jl) (j + 1) (gapsFrom fields 0 rest).1
            from rfl]
        simp [Nat.add_assoc, Nat.add_comm 1]
      · rw [show jumpsStep fields (arr, j, jl) fld
              = (arr, j, jl + 1) by simp [jumpsStep, h]]
        rw [jumps_foldl_eq fields rest arr j (jl + 1)]
        simp only [gapsFrom, if_neg h]

theorem setSeq_append_last (t : Int) :
    ∀ (ws : List Int) (arr : List Int) (j : Nat),
      setSeq arr j (ws ++ [t]) = (setSeq arr j ws).set (j + ws.length) t
  | [], arr, j => by simp [setSeq]
  | w :: ws, arr, j => by
      show setSeq (arr.set j w) (j + 1) (ws ++ [t]) = _
      rw [setSeq_append_last t ws (arr.set j w) (j + 1)]
      show _ = (setSeq (arr.set j w) (j + 1) ws).set (j + (ws.length + 1)) t
      congr 1
      omega

theorem setSeq_cons_shift (x : Int) :
    ∀ (ws : List Int) (arr : List Int) (j : Nat),
      setSeq (x :: arr) (j + 1) ws = x :: setSeq arr j ws
  | [], _, _ => rfl
  | w :: ws, arr, j => by
      show setSeq ((x :: arr).set (j + 1) w) (j + 2) ws = _
      rw [List.set_cons_succ, setSeq_cons_shift x ws (arr.set j w) (j + 1)]
      rfl

theorem setSeq_zero_eq_append :
    ∀ (ws arr : List Int), ws.length ≤ arr.length →
      setSeq arr 0 ws = ws ++ arr.drop ws.length
  | [], arr, _ => by simp [setSeq]
  | w :: ws, [], h => by simp at h
  | w :: ws, a :: arr, h => by
      show setSeq ((a :: arr).set 0 w) 1 ws = _
      rw [show (a :: arr).set 0 w = w :: arr from rfl,
        show (1 : Nat) = 0 + 1 from rfl, setSeq_cons_shift,
        setSeq_zero_eq_append ws arr (by simpa using h)]
      rfl

theorem gapsFrom_length (fields : List String) :
    ∀ (fs : List String) (jl : Int),
      (gapsFrom fields jl fs).1.length = (fs.filter (· ∈ fields)).length
  | [], _ => rfl
  | fld :: rest, jl => by
      by_cases h : fld ∈ fields <;>
        simp [gapsFrom, h, List.filter_cons, gapsFrom_length fields rest]

theorem diskIdxs_length (fields : List String) :
    ∀ fs : List String,
      (diskIdxs fields fs).length = (fs.filter (· ∈ fields)).length
  | [] => rfl
  | fld :: rest => by
      by_cases h : fld ∈ fields <;>
        simp [diskIdxs, h, List.filter_cons, diskIdxs_length fields rest]

theorem getD_map_add_one :
    ∀ (l : List Nat) (r : Nat), r < l.length →
      (l.map (· + 1)).getD r 0 = l.getD r 0 + 1
  | x :: l, 0, _ => rfl
  | x :: l, r + 1, h => by
      simp only [List.map_cons, List.getD_cons_succ]
      exact getD_map_add_one l r (by simpa using h)

theorem gapsFrom_take_sum (fields : List String) :
    ∀ (fs : List String) (jl : Int) (r : Nat),
      r < (gapsFrom fields jl fs).1.length →
      ((gapsFrom fields jl fs).1.take (r + 1)).sum + r =
        jl + ((diskIdxs fields fs).getD r 0 : Int)
  | [], jl, r, h => by simp [gapsFrom] at h
  | fld :: rest, jl, r, h => by
      by_cases hm : fld ∈ fields
      · simp only [gapsFrom, if_pos hm] at h ⊢
        simp only [diskIdxs, if_pos hm]
        cases r with
        | zero => simp
        | succ r =>
            have hr : r < (gapsFrom fields 0 rest).1.length := by
              simpa using h
            have hd : r < (diskIdxs fields rest).length := by
              rw [diskIdxs_length]
              rw [gapsFrom_length] at hr
              exact hr
            have := gapsFrom_take_sum fields rest 0 r hr
            simp only [List.take_succ_cons, List.sum_cons,
              List.getD_cons_succ]
            rw [getD_map_add_one _ _ hd]
            push_cast
            omega
      · simp only [gapsFrom, if_neg hm] at h ⊢
        simp only [diskIdxs, if_neg hm]
        have hd : r < (diskIdxs fields rest).length := by
          rw [diskIdxs_length]
          rw [gapsFrom_length] at h
          exact h
        have := gapsFrom_take_sum fields rest (jl + 1) r h
        rw [getD_map_add_one _ _ hd]
        push_cast
        omega

theorem gapsFrom_total_sum (fields : List String) :
    ∀ (fs : List String) (jl : Int),
      (gapsFrom fields jl fs).1.sum + (gapsFrom fields jl fs).2 +
          ((gapsFrom fields jl fs).1.length : Int) =
        jl + (fs.length : Int)
  | [], jl => by simp [gapsFrom]
  | fld :: rest, jl => by
      by_cases hm : fld ∈ fields
      · simp only [gapsFrom, if_pos hm, List.sum_cons, List.length_cons]
        have := gapsFrom_total_sum fields rest 0
        push_cast
        push_cast at this
        omega
      · simp only [gapsFrom, if_neg hm, List.length_cons]
        have := gapsFrom_total_sum fields rest (jl + 1)
        push_cast
        push_cast at this
        omega

theorem gapsFrom_nonneg (fields : List String) :
    ∀ (fs : List String) (jl : Int), 0 ≤ jl →
      (∀ g ∈ (gapsFrom fields jl fs).1, 0 ≤ g) ∧
        0 ≤ (gapsFrom fields jl fs).2
  | [], jl, hjl => by simp [gapsFrom, hjl]
  | fld :: rest, jl, hjl => by
      by_cases hm : fld ∈ fields
      · simp only [gapsFrom, if_pos hm]
        have := gapsFrom_nonneg fields rest 0 (le_refl 0)
        refine ⟨?_, this.2⟩
        intro g hg
        rcases List.mem_cons.1 hg with rfl | hg
        · exact hjl
        · exact this.1 g hg
      · simp only [gapsFrom, if_neg hm]
        exact gapsFrom_nonneg fields rest (jl + 1) (by omega)

theorem getD_append_length (t : Int) :
    ∀ ws : List Int, (ws ++ [t]).getD ws.length 0 = t
  | [] => rfl
  | w :: ws => by
      simp only [List.cons_append, List.length_cons, List.getD_cons_succ]
      exact getD_append_length t ws

/-- The jump table actually built by `fill_hydro`, under the
well-formedness condition that the number of `all_fields` entries found
in `fields` equals `fields.length`: it is exactly the gap description
(entries then trailing distance). -/
theorem buildJumps_eq (all_fields fields : List String)
    (hal : (all_fields.filter (· ∈ fields)).length = fields.length) :
    (buildJumps all_fields fields).1 =
      (gapsFrom fields 0 all_fields).1 ++ [(gapsFrom fields 0 all_fields).2] := by
  have hlen : (gapsFrom fields 0 all_fields).1.length = fields.length := by
    rw [gapsFrom_length]; exact hal
  have hle : ((gapsFrom fields 0 all_fields).1 ++
      [(gapsFrom fields 0 all_fields).2]).length ≤
      (List.replicate (fields.length + 1) (0 : Int)).length := by
    simp [hlen]
  rw [buildJumps]
  rw [jumps_foldl_eq fields all_fields _ 0 0]
  dsimp only
  rw [← setSeq_append_last, setSeq_zero_eq_append _ _ hle]
  rw [List.length_append, hlen]
  simp

/-! ## Closed form of the optimized decode loop -/

/-- Common closed form of both read plans: for each sub-cell `i` and each
requested-field rank `r`, one read at
`offset + skip_len (i * F + D[r], nc)` where `D` lists the requested
fields' on-disk indices. -/
def blockEvtsSpec (f : HydroFile) (nc offset : Int) (F : Nat)
    (D : List Nat) (T : Nat) : List ReadEvt :=
  (List.range T).flatMap (fun i =>
    (List.range D.length).map (fun r =>
      ⟨i, r, offset + skip_len ((i : Int) * F + (D.getD r 0 : Int)) nc,
       f.vecAt (offset + skip_len ((i : Int) * F + (D.getD r 0 : Int)) nc)⟩))

theorem readEvt_congr (f : HydroFile) (k : Nat) {j1 j2 : Nat} {p1 p2 : Int}
    (hj : j1 = j2) (hp : p1 = p2) :
    (⟨k, j1, p1, f.vecAt p1⟩ : ReadEvt) = ⟨k, j2, p2, f.vecAt p2⟩ := by
  rw [hj, hp]

theorem decodeSlots_eq (f : HydroFile) (nc : Int) (k : Nat) :
    ∀ (ws : List Int) (j : Nat) (pos jl : Int),
      0 ≤ jl + ws.headD 0 → (∀ g ∈ ws.tail, 0 ≤ g) →
      decodeSlots f nc k ws j pos jl =
        ((List.range ws.length).map (fun r =>
          ⟨k, j + r, pos + skip_len (jl + (ws.take (r + 1)).sum + r) nc,
           f.vecAt (pos + skip_len (jl + (ws.take (r + 1)).sum + r) nc)⟩),
         (if ws.isEmpty then pos
          else pos + skip_len (jl + ws.sum + ws.length) nc),
         if ws.isEmpty then jl else 0)
  | [], j, pos, jl, _, _ => by simp [decodeSlots]
  | g :: rest, j, pos, jl, h1, h2 => by
      have htail : ∀ g' ∈ rest, 0 ≤ g' := h2
      have hjl1 : 0 ≤ jl + g := by simpa using h1
      have hh : 0 ≤ (0 : Int) + rest.headD 0 := by
        cases rest with
        | nil => simp
        | cons x xs =>
            simpa using htail x (List.mem_cons_self x xs)
      have htail' : ∀ g' ∈ rest.tail, 0 ≤ g' := fun g' h' =>
        htail g' (List.mem_of_mem_tail h')
      have hpj : (if jl + g > 0 then (pos + skip_len (jl + g) nc, (0 : Int))
            else (pos, jl + g)) = (pos + skip_len (jl + g) nc, 0) := by
        by_cases hgt : jl + g > 0
        · rw [if_pos hgt]
        · have h0 : jl + g = 0 := by omega
          rw [if_neg hgt, h0, skip_len_zero, add_zero]
      simp only [decodeSlots, hpj]
      rw [decodeSlots_eq f nc k rest (j + 1)
        (pos + skip_len (jl + g) nc + skip_len 1 nc) 0 hh htail']
      simp only [Prod.mk.injEq]
      refine ⟨?_, ?_, ?_⟩
      · rw [List.length_cons, List.range_succ_eq_map, List.map_cons,
          List.map_map]
        congr 1
        · refine readEvt_congr f k (by omega) ?_
          simp only [List.take_succ_cons, List.take_zero, List.sum_cons,
            List.sum_nil, skip_len]
          ring
        · refine List.map_congr_left ?_
          intro r hr
          refine readEvt_congr f k (by simp; omega) ?_
          simp only [Function.comp, List.take_succ_cons, List.sum_cons,
            skip_len]
          push_cast
          ring
      · cases rest with
        | nil =>
            simp only [List.isEmpty_nil, if_pos, List.isEmpty_cons,
              List.sum_cons, List.sum_nil, List.length_cons, List.length_nil]
            simp only [skip_len]
            push_cast
            ring
        | cons x xs =>
            simp only [List.isEmpty_cons, List.sum_cons, List.length_cons]
            simp only [skip_len]
            push_cast
            ring
      · cases rest with
        | nil => simp
        | cons x xs => simp

theorem readEvt_congr3 (f : HydroFile) {k1 k2 j1 j2 : Nat} {p1 p2 : Int}
    (hk : k1 = k2) (hj : j1 = j2) (hp : p1 = p2) :
    (⟨k1, j1, p1, f.vecAt p1⟩ : ReadEvt) = ⟨k2, j2, p2, f.vecAt p2⟩ := by
  rw [hk, hj, hp]

theorem flatMap_congr_left {α β : Type} (l : List α) (f g : α → List β)
    (h : ∀ a ∈ l, f a = g a) : l.flatMap f = l.flatMap g := by
  induction l with
  | nil => rfl
  | cons a l ih =>
      simp only [List.flatMap_cons]
      rw [h a (List.mem_cons_self a l),
        ih (fun b hb => h b (List.mem_cons_of_mem a hb))]

theorem decodeCells_nil_jsMain (f : HydroFile) (nc t : Int) :
    ∀ (cnt k : Nat) (pos jl : Int),
      (decodeCells f nc [] t cnt k pos jl).1 = []
  | 0, _, _, _ => rfl
  | cnt + 1, k, pos, jl => by
      simp only [decodeCells, decodeSlots, List.nil_append]
      exact decodeCells_nil_jsMain f nc t cnt (k + 1) pos (jl + t)

theorem decodeCells_eq (f : HydroFile) (nc : Int) (w : Int) (ws' : List Int)
    (t : Int) (hws : ∀ g ∈ w :: ws', 0 ≤ g) (ht : 0 ≤ t) :
    ∀ (cnt k : Nat) (pos jl : Int), 0 ≤ jl + w →
      (decodeCells f nc (w :: ws') t cnt k pos jl).1 =
        (List.range cnt).flatMap (fun i =>
          (List.range (w :: ws').length).map (fun r =>
            ⟨k + i, r,
             pos + skip_len (jl + (i : Int) * ((w :: ws').sum + t
               + (w :: ws').length) + ((w :: ws').take (r + 1)).sum + r) nc,
             f.vecAt (pos + skip_len (jl + (i : Int) * ((w :: ws').sum + t
               + (w :: ws').length) + ((w :: ws').take (r + 1)).sum + r)
               nc)⟩))
  | 0, k, pos, jl, hjl => by simp [decodeCells]
  | cnt + 1, k, pos, jl, hjl => by
      have htl : ∀ g ∈ (w :: ws').tail, 0 ≤ g := fun g h =>
        hws g (List.mem_of_mem_tail h)
      have hhd : 0 ≤ jl + (w :: ws').headD 0 := by simpa using hjl
      simp only [decodeCells]
      rw [decodeSlots_eq f nc k (w :: ws') 0 pos jl hhd htl]
      simp only [List.isEmpty_cons, Bool.false_eq_true, if_false]
      rw [decodeCells_eq f nc w ws' t hws ht cnt (k + 1)
        (pos + skip_len (jl + (w :: ws').sum + (w :: ws').length) nc) (0 + t)
        (by
          have hw : (0 : Int) ≤ w := hws w (List.mem_cons_self w ws')
          omega)]
      rw [List.range_succ_eq_map, List.flatMap_cons, List.flatMap_map]
      congr 1
      · refine List.map_congr_left ?_
        intro r _
        refine readEvt_congr3 f (by omega) (by omega) ?_
        simp only [skip_len]
        push_cast
        ring
      · refine flatMap_congr_left _ _ _ ?_
        intro i _
        refine List.map_congr_left ?_
        intro r _
        refine readEvt_congr3 f (by omega) rfl ?_
        simp only [Function.comp, skip_len]
        push_cast
        ring

/-- The optimized per-block decode of `fill_hydro` reads exactly the
records spelled out by the common closed form (under the well-formedness
condition that the requested fields are all found in the catalogue). -/
theorem decodeBlock_eq_spec (f : HydroFile) (all_fields fields : List String)
    (T : Nat) (offset nc : Int)
    (hal : (all_fields.filter (· ∈ fields)).length = fields.length) :
    decodeBlock f all_fields fields T offset nc =
      blockEvtsSpec f nc offset all_fields.length
        (diskIdxs fields all_fields) T := by
  have hlen : (gapsFrom fields 0 all_fields).1.length = fields.length := by
    rw [gapsFrom_length]; exact hal
  have hdlen : (diskIdxs fields all_fields).length = fields.length := by
    rw [diskIdxs_length]; exact hal
  rw [decodeBlock, buildJumps_eq all_fields fields hal]
  rw [show ((gapsFrom fields 0 all_fields).1
        ++ [(gapsFrom fields 0 all_fields).2]).take fields.length
      = (gapsFrom fields 0 all_fields).1 by
    rw [← hlen]; exact List.take_left _ _]
  rw [show ((gapsFrom fields 0 all_fields).1
        ++ [(gapsFrom fields 0 all_fields).2]).getD fields.length 0
      = (gapsFrom fields 0 all_fields).2 by
    rw [← hlen]; exact getD_append_length _ _]
  have hnn := gapsFrom_nonneg fields all_fields 0 (le_refl 0)
  cases hwsc : (gapsFrom fields 0 all_fields).1 with
  | nil =>
      rw [decodeCells_nil_jsMain]
      have : (diskIdxs fields all_fields) = [] := by
        rw [← List.length_eq_zero, hdlen, ← hlen, hwsc]
        rfl
      simp [blockEvtsSpec, this]
  | cons w ws' =>
      rw [hwsc] at hnn
      have hS : (w :: ws').sum + (gapsFrom fields 0 all_fields).2
          + ((w :: ws').length : Int) = (all_fields.length : Int) := by
        have := gapsFrom_total_sum fields all_fields 0
        rw [hwsc] at this
        omega
      rw [show ((w : Int) :: ws'
            ++ [(gapsFrom fields 0 all_fields).2]).getD 0 0 = w from rfl]
      rw [decodeCells_eq f nc w ws' (gapsFrom fields 0 all_fields).2 hnn.1
        hnn.2 T 0 (offset + skip_len w nc) (-w) (by omega)]
      rw [blockEvtsSpec]
      refine flatMap_congr_left _ _ _ ?_
      intro i _
      rw [show (diskIdxs fields all_fields).length = (w :: ws').length by
        rw [hdlen, ← hlen, hwsc]]
      refine List.map_congr_left ?_
      intro r hr
      have hrlt : r < (gapsFrom fields 0 all_fields).1.length := by
        rw [hwsc]; exact List.mem_range.1 hr
      have hTS := gapsFrom_take_sum fields all_fields 0 r hrlt
      rw [hwsc] at hTS
      rw [zero_add] at hTS
      refine readEvt_congr3 f (by omega) rfl ?_
      simp only [skip_len]
      push_cast at hS hTS
      linear_combination
        ((i : Int) * (nc * DOUBLE_SIZE + INT64_SIZE)) * hS
        + (nc * DOUBLE_SIZE + INT64_SIZE) * hTS

/-! ## Closed form of the naive reference plan -/

theorem naiveFieldWalk_eq (f : HydroFile) (fields : List String) (nc : Int)
    (k : Nat) :
    ∀ (fs : List String) (j : Nat) (pos : Int),
      naiveFieldWalk f fields nc k fs j pos =
        ((List.range (diskIdxs fields fs).length).map (fun r =>
          ⟨k, j + r,
           pos + skip_len ((diskIdxs fields fs).getD r 0 : Int) nc,
           f.vecAt (pos + skip_len ((diskIdxs fields fs).getD r 0 : Int)
             nc)⟩),
         pos + skip_len (fs.length : Int) nc)
  | [], j, pos => by simp [naiveFieldWalk, diskIdxs, skip_len]
  | fld :: rest, j, pos => by
      by_cases hm : fld ∈ fields
      · simp only [naiveFieldWalk, if_pos hm]
        rw [naiveFieldWalk_eq f fields nc k rest (j + 1)
          (pos + skip_len 1 nc)]
        simp only [diskIdxs, if_pos hm, Prod.mk.injEq]
        refine ⟨?_, ?_⟩
        · rw [List.length_cons, List.length_map, List.range_succ_eq_map,
            List.map_cons, List.map_map]
          congr 1
          · refine readEvt_congr3 f rfl (by omega) ?_
            simp only [List.getD_cons_zero, skip_len]
            push_cast
            ring
          · refine List.map_congr_left ?_
            intro r hr
            have hrlt : r < (diskIdxs fields rest).length := by
              simpa using List.mem_range.1 hr
            refine readEvt_congr3 f rfl (by simp; omega) ?_
            simp only [Function.comp, List.getD_cons_succ]
            rw [getD_map_add_one _ _ hrlt]
            simp only [skip_len]
            push_cast
            ring
        · simp only [List.length_cons, skip_len]
          push_cast
          ring
      · simp only [naiveFieldWalk, if_neg hm]
        rw [naiveFieldWalk_eq f fields nc k rest j (pos + skip_len 1 nc)]
        simp only [diskIdxs, if_neg hm, Prod.mk.injEq]
        refine ⟨?_, ?_⟩
        · rw [List.length_map]
          refine List.map_congr_left ?_
          intro r hr
          have hrlt : r < (diskIdxs fields rest).length := List.mem_range.1 hr
          refine readEvt_congr3 f rfl rfl ?_
          rw [getD_map_add_one _ _ hrlt]
          simp only [skip_len]
          push_cast
          ring
        · simp only [List.length_cons, skip_len]
          push_cast
          ring

theorem naiveCellWalk_eq (f : HydroFile) (all_fields fields : List String)
    (nc : Int) :
    ∀ (cnt k : Nat) (pos : Int),
      naiveCellWalk f all_fields fields nc cnt k pos =
        (List.range cnt).flatMap (fun i =>
          (List.range (diskIdxs fields all_fields).length).map (fun r =>
            ⟨k + i, r,
             pos + skip_len ((i : Int) * all_fields.length
               + ((diskIdxs fields all_fields).getD r 0 : Int)) nc,
             f.vecAt (pos + skip_len ((i : Int) * all_fields.length
               + ((diskIdxs fields all_fields).getD r 0 : Int)) nc)⟩))
  | 0, k, pos => by simp [naiveCellWalk]
  | cnt + 1, k, pos => by
      simp only [naiveCellWalk]
      rw [naiveFieldWalk_eq f fields nc k all_fields 0 pos]
      rw [naiveCellWalk_eq f all_fields fields nc cnt (k + 1)
        (pos + skip_len (all_fields.length : Int) nc)]
      rw [List.range_succ_eq_map, List.flatMap_cons, List.flatMap_map]
      congr 1
      · refine List.map_congr_left ?_
        intro r _
        refine readEvt_congr3 f (by omega) (by omega) ?_
        simp only [skip_len]
        push_cast
        ring
      · refine flatMap_congr_left _ _ _ ?_
        intro i _
        refine List.map_congr_left ?_
        intro r _
        refine readEvt_congr3 f (by omega) rfl ?_
        simp only [Function.comp, skip_len]
        push_cast
        ring

/-- The naive reference plan also reads exactly the records of the common
closed form (no well-formedness condition needed). -/
theorem naiveBlockSpec_eq_spec (f : HydroFile)
    (all_fields fields : List String) (T : Nat) (offset nc : Int) :
    naiveBlockSpec f all_fields fields T offset nc =
      blockEvtsSpec f nc offset all_fields.length
        (diskIdxs fields all_fields) T := by
  rw [naiveBlockSpec, naiveCellWalk_eq, blockEvtsSpec]
  refine flatMap_congr_left _ _ _ ?_
  intro i _
  refine List.map_congr_left ?_
  intro r _
  exact readEvt_congr3 f (by omega) rfl rfl

/-! ## Claim theorem for C6 -/

/-- C6: the optimized seek pattern of `fill_hydro` — the jump table built
by walking `all_fields` in on-disk order, the single initial seek to
`offset + skip_len(first jump, record_count)` and the conditional
relative seeks — performs exactly the reads of the naive reference plan,
which walks every field record of every sub-cell one record at a time
from the block's offset: same sub-cells, same buffer slots, same byte
positions, same record contents, in the same order.  Well-formedness: the
requested fields are each found once in the catalogue. -/
theorem fill_hydro_seek_plan_matches_naive (f : HydroFile)
    (all_fields fields : List String) (twotondim : Nat) (offset nc : Int)
    (hal : (all_fields.filter (· ∈ fields)).length = fields.length) :
    decodeBlock f all_fields fields twotondim offset nc =
      naiveBlockSpec f all_fields fields twotondim offset nc := by
  rw [decodeBlock_eq_spec f all_fields fields twotondim offset nc hal,
    naiveBlockSpec_eq_spec]

/-- Witness for C6: catalogue `[a,b,c,d]`, requesting `[b,d]`, two
sub-cells, record count 2, block at byte 100. -/
theorem fill_hydro_seek_plan_matches_naive_witness :
    ((["a", "b", "c", "d"].filter (· ∈ (["b", "d"] : List String))).length
      = (["b", "d"] : List String).length) ∧
    decodeBlock ⟨fun p => p⟩ ["a", "b", "c", "d"] ["b", "d"] 2 100 2 =
      naiveBlockSpec ⟨fun p => p⟩ ["a", "b", "c", "d"] ["b", "d"] 2 100 2 :=
  ⟨by decide,
   fill_hydro_seek_plan_matches_naive ⟨fun p => p⟩ ["a", "b", "c", "d"]
     ["b", "d"] 2 100 2 (by decide)⟩

/-! ## Delivery of decoded data under field names -/

theorem sublist_filter_mem_eq :
    ∀ {fields all_fields : List String}, List.Sublist fields all_fields →
      all_fields.Nodup → all_fields.filter (· ∈ fields) = fields := by
  intro fields all_fields hsub
  induction hsub with
  | slnil => intro _; rfl
  | cons a hs ih =>
      intro hnd
      rename_i l₁ l₂
      have hanl : a ∉ l₂ := (List.nodup_cons.1 hnd).1
      have hna : a ∉ l₁ := fun h => hanl (hs.subset h)
      rw [List.filter_cons]
      rw [if_neg (by simpa using hna)]
      exact ih (List.nodup_cons.1 hnd).2
  | cons₂ a hs ih =>
      intro hnd
      rename_i l₁ l₂
      have hanl : a ∉ l₂ := (List.nodup_cons.1 hnd).1
      rw [List.filter_cons]
      rw [if_pos (by simp)]
      congr 1
      rw [List.filter_congr (q := (· ∈ l₁)) ?_]
      · exact ih (List.nodup_cons.1 hnd).2
      · intro x hx
        have hxa : x ≠ a := fun he => hanl (he ▸ hx)
        simp [List.mem_cons, hxa]

theorem diskIdxs_lt_length (fields : List String) :
    ∀ fs : List String, ∀ d ∈ diskIdxs fields fs, d < fs.length
  | [], d, hd => by simp [diskIdxs] at hd
  | fld :: rest, d, hd => by
      by_cases hm : fld ∈ fields
      · rw [diskIdxs, if_pos hm] at hd
        rcases List.mem_cons.1 hd with rfl | hd
        · simp
        · obtain ⟨d', hd', rfl⟩ := List.mem_map.1 hd
          have := diskIdxs_lt_length fields rest d' hd'
          simp only [List.length_cons]
          omega
      · rw [diskIdxs, if_neg hm] at hd
        obtain ⟨d', hd', rfl⟩ := List.mem_map.1 hd
        have := diskIdxs_lt_length fields rest d' hd'
        simp only [List.length_cons]
        omega

theorem diskIdxs_map_getD (fields : List String) :
    ∀ fs : List String,
      (diskIdxs fields fs).map (fun d => fs.getD d "") =
        fs.filter (· ∈ fields)
  | [] => rfl
  | fld :: rest => by
      have hcomp : ((fun d => (fld :: rest).getD d "") ∘ (· + 1))
          = fun d => rest.getD d "" := funext fun d => rfl
      by_cases hm : fld ∈ fields
      · rw [diskIdxs, if_pos hm, List.map_cons, List.map_map, hcomp,
          List.getD_cons_zero, List.filter_cons, if_pos (by simpa using hm),
          diskIdxs_map_getD fields rest]
      · rw [diskIdxs, if_neg hm, List.map_map, hcomp, List.filter_cons,
          if_neg (by simpa using hm), diskIdxs_map_getD fields rest]

theorem getD_map_of_lt {α β : Type} (g : α → β) (d : β) (d' : α) :
    ∀ (l : List α) (i : Nat), i < l.length →
      (l.map g).getD i d = g (l.getD i d')
  | a :: l, 0, _ => rfl
  | a :: l, i + 1, h => by
      simp only [List.map_cons, List.getD_cons_succ]
      exact getD_map_of_lt g d d' l i (by simpa using h)

theorem getD_eq_get_of_lt {α : Type} (d : α) :
    ∀ (l : List α) (i : Nat) (h : i < l.length), l.getD i d = l.get ⟨i, h⟩
  | a :: l, 0, _ => rfl
  | a :: l, i + 1, h => by
      simp only [List.getD_cons_succ]
      rw [getD_eq_get_of_lt d l i (by simpa using h)]
      rfl

theorem getD_mem_of_lt {α : Type} (d : α) :
    ∀ (l : List α) (i : Nat), i < l.length → l.getD i d ∈ l
  | a :: l, 0, _ => List.mem_cons_self a l
  | a :: l, i + 1, h => by
      simp only [List.getD_cons_succ]
      exact List.mem_cons_of_mem a (getD_mem_of_lt d l i (by simpa using h))

/-- When the requested fields are a sublist of a duplicate-free catalogue
(i.e. listed in on-disk order), the `r`-th on-disk index is the catalogue
index of the `r`-th requested field; in particular, looking it up at
`fields.indexOf n` yields `all_fields.indexOf n`. -/
theorem diskIdxs_getD_indexOf (all_fields fields : List String)
    (hnd : all_fields.Nodup) (hsub : List.Sublist fields all_fields)
    (n : String) (hn : n ∈ fields) :
    (diskIdxs fields all_fields).getD (fields.indexOf n) 0 =
        all_fields.indexOf n ∧
      fields.indexOf n < (diskIdxs fields all_fields).length := by
  have hfl : all_fields.filter (· ∈ fields) = fields :=
    sublist_filter_mem_eq hsub hnd
  have hdlen : (diskIdxs fields all_fields).length = fields.length := by
    rw [diskIdxs_length, hfl]
  have hidx : fields.indexOf n < fields.length := List.indexOf_lt_length.2 hn
  have hidx' : fields.indexOf n < (diskIdxs fields all_fields).length := by
    omega
  refine ⟨?_, hidx'⟩
  have hmap := diskIdxs_map_getD fields all_fields
  rw [hfl] at hmap
  have hcg := congrArg (fun l => l.getD (fields.indexOf n) "") hmap
  dsimp only at hcg
  rw [getD_map_of_lt (fun dd => all_fields.getD dd "") "" 0 _ _ hidx'] at hcg
  have hfn : fields.getD (fields.indexOf n) "" = n := by
    rw [getD_eq_get_of_lt "" fields _ hidx]
    exact List.indexOf_get hidx
  rw [hfn] at hcg
  have hdval : (diskIdxs fields all_fields).getD (fields.indexOf n) 0
      < all_fields.length :=
    diskIdxs_lt_length fields all_fields _ (getD_mem_of_lt 0 _ _ hidx')
  set dv := (diskIdxs fields all_fields).getD (fields.indexOf n) 0 with hdv
  rw [getD_eq_get_of_lt "" all_fields _ hdval] at hcg
  rw [← hcg, List.get_eq_getElem]
  exact (List.indexOf_getElem hnd _ _).symm

theorem filter_flatMap {α β : Type} (l : List α) (g : α → List β)
    (p : β → Bool) :
    (l.flatMap g).filter p = l.flatMap (fun a => (g a).filter p) := by
  induction l with
  | nil => rfl
  | cons a l ih => simp only [List.flatMap_cons, List.filter_append, ih]

theorem flatMap_singleton_eq_map {α β : Type} (l : List α) (g : α → β) :
    l.flatMap (fun a => [g a]) = l.map g := by
  induction l with
  | nil => rfl
  | cons a l ih =>
      simp only [List.flatMap_cons, ih]
      rfl

theorem range_filter_eq (n i : Nat) (h : i < n) :
    (List.range n).filter (fun r => r = i) = [i] := by
  induction n with
  | zero => omega
  | succ n ih =>
      rw [List.range_succ, List.filter_append]
      by_cases hi : i < n
      · rw [ih hi]
        have hn : (List.filter (fun r => decide (r = i)) [n]) = [] := by
          simp only [List.filter_cons, List.filter_nil]
          rw [if_neg (by simp; omega)]
        rw [hn, List.append_nil]
      · have hin : i = n := by omega
        subst hin
        have h1 : (List.range i).filter (fun r => decide (r = i)) = [] := by
          rw [List.filter_eq_nil_iff]
          intro a ha
          have := List.mem_range.1 ha
          simp only [decide_eq_true_eq]
          omega
        have h2 : (List.filter (fun r => decide (r = i)) [i]) = [i] := by
          simp [List.filter_cons]
        rw [h1, h2, List.nil_append]

theorem column_blockEvtsSpec (f : HydroFile) (nc offset : Int) (F : Nat)
    (D : List Nat) (T : Nat) (i : Nat) (hi : i < D.length) :
    column (blockEvtsSpec f nc offset F D T) i =
      (List.range T).map (fun (kk : Nat) =>
        f.vecAt (offset + skip_len ((kk : Int) * F + (D.getD i 0 : Int))
          nc)) := by
  rw [column, blockEvtsSpec, filter_flatMap]
  have hsub : ∀ kk : Nat,
      (((List.range D.length).map (fun r =>
        (⟨kk, r, offset + skip_len ((kk : Int) * F + (D.getD r 0 : Int)) nc,
          f.vecAt (offset + skip_len ((kk : Int) * F + (D.getD r 0 : Int))
            nc)⟩ : ReadEvt))).filter (fun e => e.slot = i)) =
      [⟨kk, i, offset + skip_len ((kk : Int) * F + (D.getD i 0 : Int)) nc,
        f.vecAt (offset + skip_len ((kk : Int) * F + (D.getD i 0 : Int))
          nc)⟩] := by
    intro kk
    rw [List.filter_map]
    rw [show ((fun (e : ReadEvt) => decide (e.slot = i)) ∘ (fun r =>
        (⟨kk, r, offset + skip_len ((kk : Int) * F + (D.getD r 0 : Int)) nc,
          f.vecAt (offset + skip_len ((kk : Int) * F + (D.getD r 0 : Int))
            nc)⟩ : ReadEvt))) = fun r => decide (r = i)
      from funext fun r => rfl]
    rw [range_filter_eq D.length i hi]
    rfl
  rw [flatMap_congr_left _ _ _ (fun kk _ => hsub kk)]
  rw [List.map_flatMap]
  simp only [List.map_cons, List.map_nil]
  exact flatMap_singleton_eq_map _ _

theorem tmpOf_aux (evts : List ReadEvt) (n : String) :
    ∀ (fields : List String) (off : Nat) (d : String → Option (List Int)),
      fields.Nodup →
      ((fields.enumFrom off).foldl
        (fun d p => fun s => if s = p.2 then some (column evts p.1) else d s)
        d) n =
      if n ∈ fields then some (column evts (off + fields.indexOf n))
      else d n
  | [], off, d, _ => by simp
  | fld :: rest, off, d, hnd => by
      rw [List.enumFrom_cons, List.foldl_cons]
      rw [tmpOf_aux evts n rest (off + 1) _ (List.nodup_cons.1 hnd).2]
      by_cases hmem : n ∈ rest
      · have hne : fld ≠ n := fun he =>
          (List.nodup_cons.1 hnd).1 (he ▸ hmem)
        rw [if_pos hmem, if_pos (List.mem_cons_of_mem fld hmem)]
        rw [List.indexOf_cons_ne rest hne]
        rw [show off + Nat.succ (List.indexOf n rest)
            = off + 1 + List.indexOf n rest from by omega]
      · rw [if_neg hmem]
        by_cases hfe : n = fld
        · subst hfe
          rw [if_pos (List.mem_cons_self n rest)]
          rw [if_pos rfl, List.indexOf_cons_self, Nat.add_zero]
        · rw [if_neg hfe]
          rw [if_neg (show ¬ n ∈ fld :: rest by simp [hfe, hmem])]

theorem tmpOf_lookup (evts : List ReadEvt) (fields : List String)
    (n : String) (hnd : fields.Nodup) (hn : n ∈ fields) :
    tmpOf evts fields n = some (column evts (fields.indexOf n)) := by
  rw [tmpOf, List.enum_eq_enumFrom]
  rw [tmpOf_aux evts n fields 0 _ hnd]
  rw [if_pos hn, Nat.zero_add]

/-- The data `fill_hydro` hands off under a requested field name `n`, for
one block, in closed form: it depends only on the catalogue's on-disk
index of `n` — not on which other fields were requested — provided the
requested list is ordered consistently with the catalogue. -/
theorem tmp_delivered (f : HydroFile) (all_fields fields : List String)
    (T : Nat) (offset nc : Int) (n : String)
    (hnd : all_fields.Nodup) (hsub : List.Sublist fields all_fields)
    (hn : n ∈ fields) :
    tmpOf (decodeBlock f all_fields fields T offset nc) fields n =
      some ((List.range T).map (fun (kk : Nat) =>
        f.vecAt (offset + skip_len ((kk : Int) * all_fields.length
          + (all_fields.indexOf n : Int)) nc))) := by
  have hal : (all_fields.filter (· ∈ fields)).length = fields.length := by
    rw [sublist_filter_mem_eq hsub hnd]
  have hfnd : fields.Nodup := hsub.nodup hnd
  obtain ⟨hD, hDlt⟩ := diskIdxs_getD_indexOf all_fields fields hnd hsub n hn
  rw [decodeBlock_eq_spec f all_fields fields T offset nc hal]
  rw [tmpOf_lookup _ fields n hfnd hn]
  rw [column_blockEvtsSpec f nc offset all_fields.length _ T _ hDlt]
  rw [hD]

theorem filterMap_congr_left {α β : Type} (l : List α) (f g : α → Option β)
    (h : ∀ a ∈ l, f a = g a) : l.filterMap f = l.filterMap g := by
  induction l with
  | nil => rfl
  | cons a l ih =>
      simp only [List.filterMap_cons]
      rw [h a (List.mem_cons_self a l),
        ih (fun b hb => h b (List.mem_cons_of_mem a hb))]

/-! ## Claim theorems for C1 -/

/-- C1 counterexample: same file and same offset tables; catalogue
`["a", "b"]`; requesting `["a", "b"]` versus its permutation `["b", "a"]`
hands off different data under the common name "a" — the buffer columns
are filled in on-disk order but labelled by position in the requested
list. -/
theorem fill_hydro_order_counterexample :
    (fill_hydro ⟨fun p => p⟩ (fun _ _ => 0) (fun _ _ => 1) [0] 1
        ["a", "b"] ["a", "b"] 1).map (fun e => e.tmp "a") ≠
    (fill_hydro ⟨fun p => p⟩ (fun _ _ => 0) (fun _ _ => 1) [0] 1
        ["a", "b"] ["b", "a"] 1).map (fun e => e.tmp "a") := by
  decide

/-- C1 (amended): provided each run's `requested_fields` list is ordered
consistently with the on-disk catalogue (a sublist of the duplicate-free
`all_fields`), the values `fill_hydro` delivers to the spatial index
under a given field name are identical whether that field is requested
alone or together with arbitrary other fields: the two runs process the
same blocks in the same order, and each block's handoff under the common
name is the same token list.  (Permuting `requested_fields` out of
on-disk order instead relabels the columns, as the counterexample
shows.) -/
theorem fill_hydro_delivery_indep (f : HydroFile)
    (offsets level_count : Nat → Nat → Int) (cpu_list : List Nat)
    (ndim : Nat) (all_fields fields₁ fields₂ : List String)
    (nlevels : Nat) (n : String) (hnd : all_fields.Nodup)
    (h1 : List.Sublist fields₁ all_fields)
    (h2 : List.Sublist fields₂ all_fields)
    (hn1 : n ∈ fields₁) (hn2 : n ∈ fields₂) :
    (fill_hydro f offsets level_count cpu_list ndim all_fields fields₁
        nlevels).map (fun e => (e.ilevel, e.icpu, e.tmp n)) =
    (fill_hydro f offsets level_count cpu_list ndim all_fields fields₂
        nlevels).map (fun e => (e.ilevel, e.icpu, e.tmp n)) := by
  simp only [fill_hydro]
  rw [List.map_flatMap, List.map_flatMap]
  refine flatMap_congr_left _ _ _ ?_
  intro il _
  rw [List.map_filterMap, List.map_filterMap]
  refine filterMap_congr_left _ _ _ ?_
  intro ic _
  by_cases hnc : level_count ic il = 0
  · rw [if_pos hnc, if_pos hnc]
  · rw [if_neg hnc, if_neg hnc]
    by_cases hoff : offsets ic il = -1
    · rw [if_pos hoff, if_pos hoff]
    · rw [if_neg hoff, if_neg hoff]
      simp only [Option.map_some']
      congr 2
      rw [tmp_delivered f all_fields fields₁ (2 ^ ndim) (offsets ic il)
          (level_count ic il) n hnd h1 hn1,
        tmp_delivered f all_fields fields₂ (2 ^ ndim) (offsets ic il)
          (level_count ic il) n hnd h2 hn2]

/-- Witness for the amended C1: requesting `["a"]` versus `["a", "b"]`
(on-disk order) on the counterexample's file delivers identical data
under "a". -/
theorem fill_hydro_delivery_indep_witness :
    (["a", "b"] : List String).Nodup ∧
    (fill_hydro ⟨fun p => p⟩ (fun _ _ => 0) (fun _ _ => 1) [0] 1
        ["a", "b"] ["a"] 1).map (fun e => (e.ilevel, e.icpu, e.tmp "a")) =
    (fill_hydro ⟨fun p => p⟩ (fun _ _ => 0) (fun _ _ => 1) [0] 1
        ["a", "b"] ["a", "b"] 1).map (fun e => (e.ilevel, e.icpu, e.tmp "a")) :=
  ⟨by decide,
   fill_hydro_delivery_indep ⟨fun p => p⟩ (fun _ _ => 0) (fun _ _ => 1) [0] 1
     ["a", "b"] ["a"] ["a", "b"] 1 "a" (by decide)
     (List.Sublist.cons₂ "a" (List.Sublist.cons "b" List.Sublist.slnil))
     (List.Sublist.cons₂ "a" (List.Sublist.cons₂ "b" List.Sublist.slnil))
     (by decide) (by decide)⟩

/-! ## Claim theorems for C8 and C9 -/

theorem mem_fill_hydro {f : HydroFile}
    {offsets level_count : Nat → Nat → Int} {cpu_list : List Nat}
    {ndim : Nat} {all_fields fields : List String} {nlevels : Nat}
    {e : Handoff}
    (he : e ∈ fill_hydro f offsets level_count cpu_list ndim all_fields
      fields nlevels) :
    e.ilevel < nlevels ∧ e.icpu ∈ cpu_list ∧
      e.nc = level_count e.icpu e.ilevel ∧ e.nc ≠ 0 ∧
      e.route = (if cpu_list.length > 1 then Route.withDomain (e.icpu + 1)
                 else Route.plain) := by
  simp only [fill_hydro, List.mem_flatMap, List.mem_range,
    List.mem_filterMap] at he
  obtain ⟨il, hil, ic, hic, hopt⟩ := he
  by_cases hnc : level_count ic il = 0
  · rw [if_pos hnc] at hopt
    cases hopt
  · rw [if_neg hnc] at hopt
    by_cases hoff : offsets ic il = -1
    · rw [if_pos hoff] at hopt
      cases hopt
    · rw [if_neg hoff] at hopt
      have he' := Option.some.inj hopt
      subst he'
      exact ⟨hil, hic, rfl, hnc, rfl⟩

/-- C8: when `fill_hydro` is called with more than one domain in the
domain list, every handoff to the spatial index goes through
`fill_level_with_domain` with the 1-based id of the single domain whose
block was just decoded (each handoff carries exactly one block's data);
when exactly one domain is selected, every handoff goes through
`fill_level`. -/
theorem fill_hydro_domain_routing (f : HydroFile)
    (offsets level_count : Nat → Nat → Int) (cpu_list : List Nat)
    (ndim : Nat) (all_fields fields : List String) (nlevels : Nat) :
    (cpu_list.length > 1 →
      ∀ e ∈ fill_hydro f offsets level_count cpu_list ndim all_fields
        fields nlevels, e.route = Route.withDomain (e.icpu + 1)) ∧
    (cpu_list.length = 1 →
      ∀ e ∈ fill_hydro f offsets level_count cpu_list ndim all_fields
        fields nlevels, e.route = Route.plain) := by
  constructor
  · intro hlen e he
    rw [(mem_fill_hydro he).2.2.2.2, if_pos hlen]
  · intro hlen e he
    rw [(mem_fill_hydro he).2.2.2.2, if_neg (by omega)]

/-- Witness for C8: two selected domains at one level; both handoffs are
routed through `fill_level_with_domain` with the matching 1-based id. -/
theorem fill_hydro_domain_routing_witness :
    (([0, 1] : List Nat).length > 1) ∧
    (∀ e ∈ fill_hydro ⟨fun p => p⟩ (fun _ _ => 0) (fun _ _ => 1) [0, 1] 1
        ["a"] ["a"] 1, e.route = Route.withDomain (e.icpu + 1)) :=
  ⟨by decide,
   (fill_hydro_domain_routing ⟨fun p => p⟩ (fun _ _ => 0) (fun _ _ => 1)
     [0, 1] 1 ["a"] ["a"] 1).1 (by decide)⟩

theorem le_listMax (l : List Int) (x : Int) (hx : x ∈ l) : x ≤ listMax l :=
  le_foldl_max_mem l l.headI x hx

/-- C9: every block processed by `fill_hydro` has its record count `nc`
equal to an entry of the record-count table, hence bounded by the table's
maximum — the first dimension of the decode buffer — so every in-place
vector read of the block stays within the allocated buffer.
`rows` is the number of rows of the table (its first-axis extent), and
every selected domain id must index a real row. -/
theorem fill_hydro_nc_within_buffer (f : HydroFile)
    (offsets level_count : Nat → Nat → Int) (cpu_list : List Nat)
    (ndim : Nat) (all_fields fields : List String) (nlevels rows : Nat)
    (hcl : ∀ c ∈ cpu_list, c < rows) :
    ∀ e ∈ fill_hydro f offsets level_count cpu_list ndim all_fields fields
      nlevels, e.nc ≤ tableMax level_count rows nlevels := by
  intro e he
  obtain ⟨hil, hic, hnc, _, _⟩ := mem_fill_hydro he
  rw [hnc, tableMax]
  refine le_listMax _ _ ?_
  simp only [List.mem_flatMap, List.mem_map, List.mem_range]
  exact ⟨e.icpu, hcl _ hic, e.ilevel, hil, rfl⟩

/-- Witness for C9: concrete single-domain run; the processed block's
record count is bounded by the table maximum. -/
theorem fill_hydro_nc_within_buffer_witness :
    (∀ c ∈ ([0] : List Nat), c < 1) ∧
    (∀ e ∈ fill_hydro ⟨fun p => p⟩ (fun _ _ => 0) (fun _ _ => 1) [0] 1
        ["a"] ["a"] 1, e.nc ≤ tableMax (fun _ _ => 1) 1 1) :=
  ⟨by decide,
   fill_hydro_nc_within_buffer ⟨fun p => p⟩ (fun _ _ => 0) (fun _ _ => 1)
     [0] 1 ["a"] ["a"] 1 1 (by decide)⟩

/-- Concrete sanity check: the reads the decode loop performs do not
depend on the order of the requested list, only on membership — the
request `[d, b]` performs exactly the reads of the naive plan for
`[b, d]`. -/
theorem decodeBlock_ignores_request_order :
    decodeBlock ⟨fun p => p⟩ ["a", "b", "c", "d"] ["d", "b"] 2 100 2 =
      naiveBlockSpec ⟨fun p => p⟩ ["a", "b", "c", "d"] ["b", "d"] 2 100 2 := by
  decide

end RamsesIO
